import Mathlib

/-!
# Method-description builder of `openrpc_go_document` (`method_ethereumrpc.go`)

A shallow embedding of `DefaultEthereumParseOptions`,
`DefaultServiceCallbackToMethodEthereum` and `makeEthereumMethod`.

Modelling conventions.

* A Go call that returns `(value, error)` or aborts with a runtime panic is a
  value of `Outcome`: `ok v` is `(v, nil)`, `error e` is `(nil, e)` and
  `panic p` is a Go runtime panic unwinding out of the function.
* A Go pointer that the code tests against `nil`, or dereferences without a
  test, is an `Option`.
* `reflect.Type` and `spec.Schema` are type parameters `Ty` and `Schema`.
* The entries of the expanded static field lists are non-nil `*NamedField`
  values whose `Field` is not nil, as `expandASTField` builds them.
* Hooks are total functions of their arguments.  A schema mutator
  `func(*spec.Schema) error` is a function returning the schema it leaves
  behind together with its optional error; a content-descriptor mutator
  `func(bool, int, *ContentDescriptor)` returns the descriptor it leaves
  behind; the skip predicate only reads the descriptor.
* Claims about which hook is called, when and with which arguments are stated
  on a second embedding of the same code, `makeEthereumMethodLogged`, that
  returns the list of hook calls next to the outcome; its outcome is proved
  equal to that of `makeEthereumMethod`.
* Declarations of this package that live in other files (`typeToSchema`,
  `fullTypeDescription`, `expandASTField`, `nullContentDescriptor`,
  `newMethod`, `methodSummary`, `methodDeprecated`, `newParsedCallback`,
  `errParseCallbackAutoGenerate`, `DefaultParseOptions`) and `spew.Sdump` are
  the fields of `Env`.
-/

namespace OpenrpcGoDocument

/-! ## Go runtime values -/

/-- Go `error` value, identified by the text `Error()` returns. -/
structure GoError where
  msg : String
deriving DecidableEq, Repr

/-- Go runtime panics `makeEthereumMethod` can raise. -/
inductive GoPanic where
  | indexOutOfRange (index len : Nat)
  | nilDereference
deriving DecidableEq, Repr

/-- Result of a Go call: a value with a nil error, a non-nil error with no
value, or a runtime panic. -/
inductive Outcome (α : Type) where
  | ok (a : α)
  | error (e : GoError)
  | panic (p : GoPanic)
deriving DecidableEq, Repr

/-- Go `strings.HasPrefix` on character sequences. -/
def hasPrefixChars : List Char → List Char → Bool
  | _, [] => true
  | [], _ :: _ => false
  | c :: s, d :: p => c == d && hasPrefixChars s p

/-- Go `strings.Contains` on character sequences: `substr` occurs at some
offset of `s`. -/
def containsChars : List Char → List Char → Bool
  | [], substr => hasPrefixChars [] substr
  | c :: s, substr => hasPrefixChars (c :: s) substr || containsChars s substr

/-- Go `strings.Contains(s, substr)`. -/
def stringsContains (s substr : String) : Bool :=
  containsChars s.data substr.data

/-! ## Data model -/

/-- Go `ast.CommentGroup`, reduced to the text its `Text()` method yields. -/
structure CommentGroup where
  text : String
deriving DecidableEq, Repr

/-- Go `(*ast.CommentGroup).Text()`: the empty string on a nil receiver. -/
def CommentGroup.Text : Option CommentGroup → String
  | none => ""
  | some g => g.text

/-- Go `ast.Field`: the declared names of one field group and its trailing
comment. -/
structure AstField where
  Names : List String
  Comment : Option CommentGroup
deriving DecidableEq, Repr

/-- Go `ast.FieldList`; `List` is a slice that may be nil. -/
structure FieldList where
  List : Option (List AstField)
deriving DecidableEq, Repr

/-- Go `ast.FuncType`. -/
structure FuncType where
  Params : Option FieldList
  Results : Option FieldList
deriving DecidableEq, Repr

/-- Go `ast.FuncDecl`: its leading doc comment and its `Type`. -/
structure FuncDecl where
  Doc : Option CommentGroup
  Type_ : Option FuncType
deriving DecidableEq, Repr

/-- The package type `NamedField`: static metadata of one parameter or return
position. -/
structure NamedField where
  Name : String
  Field : AstField
deriving DecidableEq, Repr

/-- Go `goopenrpcT.ContentDescriptor` (its embedded `Content`). -/
structure ContentDescriptor (Schema : Type) where
  Name : String
  Summary : String
  Description : String
  Required : Bool
  Schema : Schema
deriving DecidableEq, Repr

/-- Go `goopenrpcT.ExternalDocs`. -/
structure ExternalDocs where
  Description : String
  URL : String
deriving DecidableEq, Repr

/-- Go `goopenrpcT.Method`, the fields `makeEthereumMethod` assigns.
`Result` is a pointer. -/
structure Method (Schema : Type) where
  Name : String
  Summary : String
  Description : String
  ExternalDocs : ExternalDocs
  Params : List (ContentDescriptor Schema)
  Result : Option (ContentDescriptor Schema)
  Deprecated : Bool
deriving DecidableEq, Repr

/-- The package type `DocumentProviderParseOpts`, the hooks this file reads. -/
structure DocumentProviderParseOpts (Schema : Type) where
  SchemaMutationFns : List (Schema → Schema × Option GoError)
  ContentDescriptorMutationFns :
    List (Bool → Nat → ContentDescriptor Schema → ContentDescriptor Schema)
  ContentDescriptorSkipFn : Option (Bool → Nat → ContentDescriptor Schema → Bool)

/-- The package type `Callback`, seen through `getArgTypes()`, `getRetTypes()`
and `Func().Type().String()`. -/
structure Callback (Ty : Type) where
  getArgTypes : List Ty
  getRetTypes : List Ty
  funcTypeString : String
deriving DecidableEq, Repr

/-- Go `*runtime.Func`, seen through `FileLine(Entry())`. -/
structure RuntimeFunc where
  file : String
  line : Int
deriving DecidableEq, Repr

/-- The package type `parsedCallback`. -/
structure parsedCallback (Ty : Type) where
  cb : Callback Ty
  runtimeF : RuntimeFunc
  fdecl : FuncDecl
deriving DecidableEq, Repr

/-- Declarations the file uses and that are defined elsewhere. -/
structure Env (Ty Schema : Type) where
  typeToSchema : Option (DocumentProviderParseOpts Schema) → Ty → Schema
  fullTypeDescription : Ty → String
  expandASTField : AstField → List NamedField
  nullContentDescriptor : ContentDescriptor Schema
  newMethod : Method Schema
  methodSummary : FuncDecl → String
  methodDeprecated : FuncDecl → Bool
  newParsedCallback : Callback Ty → Outcome (parsedCallback Ty)
  errParseCallbackAutoGenerate : GoError
  DefaultParseOptions : DocumentProviderParseOpts Schema
  sdump : Callback Ty → String

/-! ## `DefaultEthereumParseOptions` (lines 27-36) -/

/-- The skip predicate installed at lines 29-34. -/
def ethereumSkipFn {Schema : Type} (isArgs : Bool) (index : Nat)
    (cd : ContentDescriptor Schema) : Bool :=
  if isArgs && index == 0 && stringsContains cd.Description "context" then
    true
  else
    false

/-- Source function `DefaultEthereumParseOptions`. -/
def DefaultEthereumParseOptions {Ty Schema : Type} (env : Env Ty Schema) :
    DocumentProviderParseOpts Schema :=
  let opts := env.DefaultParseOptions
  { opts with ContentDescriptorSkipFn := some ethereumSkipFn }

/-! ## `makeEthereumMethod` (lines 59-168) -/

/-- Lines 64-71 and 73-80: flatten an optional field list with
`expandASTField`; the caller has already tested `fdecl.Type != nil`. -/
def expandFieldList (expand : AstField → List NamedField) :
    Option FieldList → List NamedField
  | none => []
  | some fl =>
    match fl.List with
    | none => []
    | some fs => fs.foldl (fun acc f => acc ++ expand f) []

/-- Lines 64-71: `argASTFields`. -/
def argASTFields {Ty Schema : Type} (env : Env Ty Schema) (pcb : parsedCallback Ty) :
    List NamedField :=
  match pcb.fdecl.Type_ with
  | none => []
  | some t => expandFieldList env.expandASTField t.Params

/-- Lines 73-80: `retASTFields`. -/
def retASTFields {Ty Schema : Type} (env : Env Ty Schema) (pcb : parsedCallback Ty) :
    List NamedField :=
  match pcb.fdecl.Type_ with
  | none => []
  | some t => expandFieldList env.expandASTField t.Results

/-- Lines 82-84: the `description` closure. -/
def description {Ty : Type} (pcb : parsedCallback Ty) : String :=
  "`" ++ pcb.cb.funcTypeString ++ "`"

/-- Lines 89-93: run the schema mutators in order on `sch`, stopping at the
first one that returns an error. -/
def applySchemaMutations {Schema : Type} :
    List (Schema → Schema × Option GoError) → Schema → Outcome Schema
  | [], sch => .ok sch
  | mutation :: rest, sch =>
    match mutation sch with
    | (_, some err) => .error err
    | (sch1, none) => applySchemaMutations rest sch1

/-- Lines 86-104: the `contentDescriptor` closure. -/
def contentDescriptor {Ty Schema : Type} (env : Env Ty Schema)
    (opts : Option (DocumentProviderParseOpts Schema)) (ty : Ty)
    (astNamedField : NamedField) : Outcome (ContentDescriptor Schema) :=
  let sch := env.typeToSchema opts ty
  let mutated : Outcome Schema :=
    match opts with
    | some o =>
      if o.SchemaMutationFns.length > 0 then
        applySchemaMutations o.SchemaMutationFns sch
      else .ok sch
    | none => .ok sch
  match mutated with
  | .error err => .error err
  | .panic p => .panic p
  | .ok sch1 =>
    .ok { Name := astNamedField.Name
          Summary := CommentGroup.Text astNamedField.Field.Comment
          Required := true
          Description := env.fullTypeDescription ty
          Schema := sch1 }

/-- Lines 116-118 and 134-136: run the content-descriptor mutators in order on
`cd`. -/
def applyContentDescriptorMutations {Schema : Type}
    (fns : List (Bool → Nat → ContentDescriptor Schema → ContentDescriptor Schema))
    (isArgs : Bool) (i : Nat) (cd : ContentDescriptor Schema) : ContentDescriptor Schema :=
  fns.foldl (fun c fn => fn isArgs i c) cd

/-- The test `skipFn != nil && skipFn(isArgs, i, cd)` of lines 113 and 131. -/
def skipped {Schema : Type}
    (skipFn : Option (Bool → Nat → ContentDescriptor Schema → Bool))
    (isArgs : Bool) (i : Nat) (cd : ContentDescriptor Schema) : Bool :=
  match skipFn with
  | none => false
  | some fn => fn isArgs i cd

/-- The loop shared by the `params` closure (lines 108-120, `isArgs = true`)
and the `rets` closure (lines 126-138, `isArgs = false`): `i` is the range
index, the second list what is left of the runtime types, `out` the slice
built so far. -/
def descriptorLoop {Ty Schema : Type} (env : Env Ty Schema)
    (opts : Option (DocumentProviderParseOpts Schema)) (isArgs : Bool)
    (astFields : List NamedField)
    (skipFn : Option (Bool → Nat → ContentDescriptor Schema → Bool)) :
    Nat → List Ty → List (ContentDescriptor Schema) →
      Outcome (List (ContentDescriptor Schema))
  | _, [], out => .ok out
  | i, a :: rest, out =>
    match astFields[i]? with
    | none => .panic (.indexOutOfRange i astFields.length)
    | some f =>
      match contentDescriptor env opts a f with
      | .error err => .error err
      | .panic p => .panic p
      | .ok cd =>
        if skipped skipFn isArgs i cd then
          descriptorLoop env opts isArgs astFields skipFn (i + 1) rest out
        else
          match opts with
          | none => .panic .nilDereference
          | some o =>
            descriptorLoop env opts isArgs astFields skipFn (i + 1) rest
              (out ++ [applyContentDescriptorMutations
                o.ContentDescriptorMutationFns isArgs i cd])

/-- Lines 106-122: the `params` closure. -/
def params {Ty Schema : Type} (env : Env Ty Schema)
    (opts : Option (DocumentProviderParseOpts Schema)) (pcb : parsedCallback Ty)
    (skipFn : Option (Bool → Nat → ContentDescriptor Schema → Bool)) :
    Outcome (List (ContentDescriptor Schema)) :=
  descriptorLoop env opts true (argASTFields env pcb) skipFn 0 pcb.cb.getArgTypes []

/-- Lines 124-143: the `rets` closure. -/
def rets {Ty Schema : Type} (env : Env Ty Schema)
    (opts : Option (DocumentProviderParseOpts Schema)) (pcb : parsedCallback Ty)
    (skipFn : Option (Bool → Nat → ContentDescriptor Schema → Bool)) :
    Outcome (List (ContentDescriptor Schema)) :=
  match descriptorLoop env opts false (retASTFields env pcb) skipFn 0
      pcb.cb.getRetTypes [] with
  | .error err => .error err
  | .panic p => .panic p
  | .ok out =>
    if out.length = 0 then .ok (out ++ [env.nullContentDescriptor]) else .ok out

/-- Source function `makeEthereumMethod`. -/
def makeEthereumMethod {Ty Schema : Type} (env : Env Ty Schema)
    (opts : Option (DocumentProviderParseOpts Schema)) (name : String)
    (pcb : parsedCallback Ty) : Outcome (Method Schema) :=
  let runtimeFile := pcb.runtimeF.file
  let runtimeLine := pcb.runtimeF.line
  match opts with
  | none => .panic .nilDereference
  | some o =>
    match params env opts pcb o.ContentDescriptorSkipFn with
    | .error err => .error err
    | .panic p => .panic p
    | .ok collectedParams =>
      match rets env opts pcb o.ContentDescriptorSkipFn with
      | .error err => .error err
      | .panic p => .panic p
      | .ok collectedResults =>
        match collectedResults[0]? with
        | none => .panic (.indexOutOfRange 0 collectedResults.length)
        | some res =>
          let method := env.newMethod
          .ok { method with
                Name := name
                Summary := env.methodSummary pcb.fdecl
                Description := description pcb
                ExternalDocs :=
                  { Description := "line=" ++ toString runtimeLine
                    URL := "file://" ++ runtimeFile }
                Params := collectedParams
                Result := some res
                Deprecated := env.methodDeprecated pcb.fdecl }

/-! ## `DefaultServiceCallbackToMethodEthereum` (lines 43-57) -/

/-- Source function `DefaultServiceCallbackToMethodEthereum`. -/
def DefaultServiceCallbackToMethodEthereum {Ty Schema : Type} (env : Env Ty Schema)
    (opts : Option (DocumentProviderParseOpts Schema)) (name : String)
    (cb : Callback Ty) : Outcome (Method Schema) :=
  match env.newParsedCallback cb with
  | .panic p => .panic p
  | .error err =>
    if stringsContains err.msg "autogenerated" then
      .error env.errParseCallbackAutoGenerate
    else
      .error err
  | .ok pcb =>
    match makeEthereumMethod env opts name pcb with
    | .panic p => .panic p
    | .error err =>
      .error ⟨"make method error method=" ++ name ++ " cb=" ++ env.sdump cb
        ++ " error=" ++ err.msg⟩
    | .ok method => .ok method

/-! ## `makeEthereumMethod` with its hook calls recorded

The same closures, each returning next to its result the list of the calls it
made to the hooks of the options, in the order in which it made them. -/

/-- One call of a hook of the options: the `k`-th schema mutator called on
`sch`, the skip predicate called with `(isArgs, index, cd)`, or the `k`-th
content-descriptor mutator called with `(isArgs, index, cd)`. -/
inductive HookCall (Schema : Type) where
  | schemaMutation (k : Nat) (sch : Schema)
  | skip (isArgs : Bool) (index : Nat) (cd : ContentDescriptor Schema)
  | mutation (k : Nat) (isArgs : Bool) (index : Nat) (cd : ContentDescriptor Schema)
deriving DecidableEq, Repr

/-- The `isArgs` argument of a call of the skip predicate or of a
content-descriptor mutator; a schema mutator has none. -/
def HookCall.flag {Schema : Type} : HookCall Schema → Option Bool
  | .schemaMutation _ _ => none
  | .skip isArgs _ _ => some isArgs
  | .mutation _ isArgs _ _ => some isArgs

/-- Lines 89-93 with the calls recorded; `k` is the rank of the first mutator
of the list. -/
def applySchemaMutationsLogged {Schema : Type} :
    Nat → List (Schema → Schema × Option GoError) → Schema →
      Outcome Schema × List (HookCall Schema)
  | _, [], sch => (.ok sch, [])
  | k, mutation :: rest, sch =>
    match mutation sch with
    | (_, some err) => (.error err, [.schemaMutation k sch])
    | (sch1, none) =>
      let r := applySchemaMutationsLogged (k + 1) rest sch1
      (r.1, .schemaMutation k sch :: r.2)

/-- Lines 86-104 with the calls recorded. -/
def contentDescriptorLogged {Ty Schema : Type} (env : Env Ty Schema)
    (opts : Option (DocumentProviderParseOpts Schema)) (ty : Ty)
    (astNamedField : NamedField) :
    Outcome (ContentDescriptor Schema) × List (HookCall Schema) :=
  let sch := env.typeToSchema opts ty
  let mutated : Outcome Schema × List (HookCall Schema) :=
    match opts with
    | some o =>
      if o.SchemaMutationFns.length > 0 then
        applySchemaMutationsLogged 0 o.SchemaMutationFns sch
      else (.ok sch, [])
    | none => (.ok sch, [])
  match mutated.1 with
  | .error err => (.error err, mutated.2)
  | .panic p => (.panic p, mutated.2)
  | .ok sch1 =>
    (.ok { Name := astNamedField.Name
           Summary := CommentGroup.Text astNamedField.Field.Comment
           Required := true
           Description := env.fullTypeDescription ty
           Schema := sch1 }, mutated.2)

/-- Lines 116-118 and 134-136 with the calls recorded; `k` is the rank of the
first mutator of the list. -/
def applyContentDescriptorMutationsLogged {Schema : Type} :
    Nat → List (Bool → Nat → ContentDescriptor Schema → ContentDescriptor Schema) →
      Bool → Nat → ContentDescriptor Schema →
      ContentDescriptor Schema × List (HookCall Schema)
  | _, [], _, _, cd => (cd, [])
  | k, fn :: rest, isArgs, i, cd =>
    let r := applyContentDescriptorMutationsLogged (k + 1) rest isArgs i (fn isArgs i cd)
    (r.1, .mutation k isArgs i cd :: r.2)

/-- The test of lines 113 and 131 with the call recorded: a nil predicate is
not called. -/
def skippedLogged {Schema : Type}
    (skipFn : Option (Bool → Nat → ContentDescriptor Schema → Bool))
    (isArgs : Bool) (i : Nat) (cd : ContentDescriptor Schema) :
    Bool × List (HookCall Schema) :=
  match skipFn with
  | none => (false, [])
  | some fn => (fn isArgs i cd, [.skip isArgs i cd])

/-- The loop of lines 108-120 and 126-138 with the calls recorded. -/
def descriptorLoopLogged {Ty Schema : Type} (env : Env Ty Schema)
    (opts : Option (DocumentProviderParseOpts Schema)) (isArgs : Bool)
    (astFields : List NamedField)
    (skipFn : Option (Bool → Nat → ContentDescriptor Schema → Bool)) :
    Nat → List Ty → List (ContentDescriptor Schema) →
      Outcome (List (ContentDescriptor Schema)) × List (HookCall Schema)
  | _, [], out => (.ok out, [])
  | i, a :: rest, out =>
    match astFields[i]? with
    | none => (.panic (.indexOutOfRange i astFields.length), [])
    | some f =>
      let c := contentDescriptorLogged env opts a f
      match c.1 with
      | .error err => (.error err, c.2)
      | .panic p => (.panic p, c.2)
      | .ok cd =>
        let s := skippedLogged skipFn isArgs i cd
        if s.1 then
          let r := descriptorLoopLogged env opts isArgs astFields skipFn (i + 1) rest out
          (r.1, c.2 ++ s.2 ++ r.2)
        else
          match opts with
          | none => (.panic .nilDereference, c.2 ++ s.2)
          | some o =>
            let m := applyContentDescriptorMutationsLogged 0
              o.ContentDescriptorMutationFns isArgs i cd
            let r := descriptorLoopLogged env opts isArgs astFields skipFn (i + 1) rest
              (out ++ [m.1])
            (r.1, c.2 ++ s.2 ++ m.2 ++ r.2)

/-- Lines 106-122 with the calls recorded. -/
def paramsLogged {Ty Schema : Type} (env : Env Ty Schema)
    (opts : Option (DocumentProviderParseOpts Schema)) (pcb : parsedCallback Ty)
    (skipFn : Option (Bool → Nat → ContentDescriptor Schema → Bool)) :
    Outcome (List (ContentDescriptor Schema)) × List (HookCall Schema) :=
  descriptorLoopLogged env opts true (argASTFields env pcb) skipFn 0 pcb.cb.getArgTypes []

/-- Lines 124-143 with the calls recorded. -/
def retsLogged {Ty Schema : Type} (env : Env Ty Schema)
    (opts : Option (DocumentProviderParseOpts Schema)) (pcb : parsedCallback Ty)
    (skipFn : Option (Bool → Nat → ContentDescriptor Schema → Bool)) :
    Outcome (List (ContentDescriptor Schema)) × List (HookCall Schema) :=
  let r := descriptorLoopLogged env opts false (retASTFields env pcb) skipFn 0
    pcb.cb.getRetTypes []
  match r.1 with
  | .error err => (.error err, r.2)
  | .panic p => (.panic p, r.2)
  | .ok out =>
    if out.length = 0 then (.ok (out ++ [env.nullContentDescriptor]), r.2)
    else (.ok out, r.2)

/-- Source function `makeEthereumMethod` with the calls recorded. -/
def makeEthereumMethodLogged {Ty Schema : Type} (env : Env Ty Schema)
    (opts : Option (DocumentProviderParseOpts Schema)) (name : String)
    (pcb : parsedCallback Ty) : Outcome (Method Schema) × List (HookCall Schema) :=
  let runtimeFile := pcb.runtimeF.file
  let runtimeLine := pcb.runtimeF.line
  match opts with
  | none => (.panic .nilDereference, [])
  | some o =>
    let ps := paramsLogged env opts pcb o.ContentDescriptorSkipFn
    match ps.1 with
    | .error err => (.error err, ps.2)
    | .panic p => (.panic p, ps.2)
    | .ok collectedParams =>
      let rs := retsLogged env opts pcb o.ContentDescriptorSkipFn
      match rs.1 with
      | .error err => (.error err, ps.2 ++ rs.2)
      | .panic p => (.panic p, ps.2 ++ rs.2)
      | .ok collectedResults =>
        match collectedResults[0]? with
        | none => (.panic (.indexOutOfRange 0 collectedResults.length), ps.2 ++ rs.2)
        | some res =>
          let method := env.newMethod
          (.ok { method with
                 Name := name
                 Summary := env.methodSummary pcb.fdecl
                 Description := description pcb
                 ExternalDocs :=
                   { Description := "line=" ++ toString runtimeLine
                     URL := "file://" ++ runtimeFile }
                 Params := collectedParams
                 Result := some res
                 Deprecated := env.methodDeprecated pcb.fdecl }, ps.2 ++ rs.2)

/-! ## A concrete handler: `Add(ctx, a int, b int) (int, error)` -/

/-- The handler `Add(ctx context.Context, a, b int) (sum int, err error)`. -/
def exAdd : parsedCallback String where
  cb :=
    { getArgTypes := ["context.Context", "int", "int"]
      getRetTypes := ["int", "error"]
      funcTypeString := "func(context.Context, int, int) (int, error)" }
  runtimeF := ⟨"calc.go", 12⟩
  fdecl :=
    { Doc := none
      Type_ := some
        { Params := some ⟨some [⟨["ctx"], none⟩, ⟨["a", "b"], none⟩]⟩
          Results := some ⟨some [⟨["sum"], none⟩, ⟨["err"], none⟩]⟩ } }

/-- Sample environment over type names and textual schemas.  Its declaration
resolver finds the declaration of `Add`, classifies the parameterless
`func()` as compiler-generated and fails on every other callback. -/
def exEnv : Env String String where
  typeToSchema := fun _ ty => "schema:" ++ ty
  fullTypeDescription := fun ty => ty
  expandASTField := fun f => f.Names.map (fun n => ⟨n, f⟩)
  nullContentDescriptor := ⟨"Null", "", "", false, "null"⟩
  newMethod := ⟨"", "", "", ⟨"", ""⟩, [], none, false⟩
  methodSummary := fun d => CommentGroup.Text d.Doc
  methodDeprecated := fun _ => false
  newParsedCallback := fun cb =>
    if cb.funcTypeString == "func()" then
      .error ⟨"open <autogenerated>: no such file or directory"⟩
    else if cb.funcTypeString == exAdd.cb.funcTypeString then
      .ok exAdd
    else
      .error ⟨"open calc.go: no such file or directory"⟩
  errParseCallbackAutoGenerate := ⟨"autogenerated callback"⟩
  DefaultParseOptions := ⟨[], [], none⟩
  sdump := fun cb => cb.funcTypeString

/-- Options with one passing schema mutator, one content-descriptor mutator
and no skip predicate. -/
def exOptsNoSkip : DocumentProviderParseOpts String where
  SchemaMutationFns := [fun sch => (sch ++ "!", none)]
  ContentDescriptorMutationFns := [fun _ _ cd => { cd with Summary := "doc" }]
  ContentDescriptorSkipFn := none

/-- A handler with two runtime parameter types but a single static parameter
field. -/
def exShort : parsedCallback String where
  cb :=
    { getArgTypes := ["int", "int"]
      getRetTypes := ["int"]
      funcTypeString := "func(int, int) int" }
  runtimeF := ⟨"calc.go", 30⟩
  fdecl :=
    { Doc := none
      Type_ := some
        { Params := some ⟨some [⟨["a"], none⟩]⟩
          Results := some ⟨some [⟨["diff"], none⟩]⟩ } }

/-- The handler `Ping(a int)`, which declares no return value. -/
def exPing : parsedCallback String where
  cb :=
    { getArgTypes := ["int"]
      getRetTypes := []
      funcTypeString := "func(int)" }
  runtimeF := ⟨"calc.go", 40⟩
  fdecl :=
    { Doc := none
      Type_ := some
        { Params := some ⟨some [⟨["a"], none⟩]⟩
          Results := none } }

/-- Options whose skip predicate drops parameter 0 and nothing else, with one
content-descriptor mutator. -/
def exOptsSkipFirst : DocumentProviderParseOpts String where
  SchemaMutationFns := []
  ContentDescriptorMutationFns := [fun _ _ cd => { cd with Summary := "doc" }]
  ContentDescriptorSkipFn := some (fun isArgs index _ => isArgs && index == 0)

/-- A compiler-generated wrapper `func()`. -/
def exWrapper : Callback String where
  getArgTypes := []
  getRetTypes := []
  funcTypeString := "func()"

/-- Options whose single schema mutator rejects the schema of `error`. -/
def exOptsFailing : DocumentProviderParseOpts String where
  SchemaMutationFns :=
    [fun sch => (sch, if sch == "schema:error" then some ⟨"unsupported schema"⟩ else none)]
  ContentDescriptorMutationFns := []
  ContentDescriptorSkipFn := none

/-- A content-descriptor mutator that appends `marker` to `Description`. -/
def appendDescription {Schema : Type} (marker : String) :
    Bool → Nat → ContentDescriptor Schema → ContentDescriptor Schema :=
  fun _ _ cd => { cd with Description := cd.Description ++ marker }

/-- Options with two content-descriptor mutators that append the markers `A`
and `B` to `Description`, and the skip predicate of `exOptsSkipFirst`. -/
def exOptsMarkers : DocumentProviderParseOpts String where
  SchemaMutationFns := []
  ContentDescriptorMutationFns := [appendDescription "A", appendDescription "B"]
  ContentDescriptorSkipFn := some (fun isArgs index _ => isArgs && index == 0)

/-- The handler `Ping(a int)` with a declaration whose `Type` is nil, so that
no static field is recovered for its parameter. -/
def exPingNoDecl : parsedCallback String where
  cb :=
    { getArgTypes := ["int"]
      getRetTypes := []
      funcTypeString := "func(int)" }
  runtimeF := ⟨"calc.go", 40⟩
  fdecl := { Doc := none, Type_ := none }

/-- A handler `Noop()` without parameters and return values. -/
def exNoop : parsedCallback String where
  cb :=
    { getArgTypes := []
      getRetTypes := []
      funcTypeString := "func()" }
  runtimeF := ⟨"calc.go", 50⟩
  fdecl := { Doc := none, Type_ := some { Params := none, Results := none } }

/-- Options with a schema mutator, a content-descriptor mutator and a skip
predicate that drops every return position. -/
def exOptsSkipReturns : DocumentProviderParseOpts String where
  SchemaMutationFns := [fun sch => (sch ++ "!", none)]
  ContentDescriptorMutationFns := [appendDescription "A"]
  ContentDescriptorSkipFn := some (fun isArgs _ _ => !isArgs)

/-- Options with two schema mutators, two content-descriptor mutators and a
skip predicate that drops parameter 0. -/
def exOptsAllHooks : DocumentProviderParseOpts String where
  SchemaMutationFns := [fun sch => (sch ++ "!", none), fun sch => (sch ++ "?", none)]
  ContentDescriptorMutationFns := [appendDescription "A", appendDescription "B"]
  ContentDescriptorSkipFn := some (fun isArgs index _ => isArgs && index == 0)

/-! ## Specification vocabulary -/

/-- The list `cds` holds, position by position, the descriptor the
`contentDescriptor` closure returns for runtime type `i` paired with static
field `i`. -/
def Built {Ty Schema : Type} (env : Env Ty Schema)
    (opts : Option (DocumentProviderParseOpts Schema)) (tys : List Ty)
    (astFields : List NamedField) (cds : List (ContentDescriptor Schema)) : Prop :=
  List.Forall₂ (fun (tf : Ty × NamedField) cd => contentDescriptor env opts tf.1 tf.2 = .ok cd)
    (tys.zip astFields) cds

/-- What is left of the freshly built descriptors `cds` (the first one sitting
at position `i`): the positions the skip test rejects are removed, the others
are run through the content-descriptor mutators with their own position. -/
def survivorsFrom {Schema : Type} (o : DocumentProviderParseOpts Schema) (isArgs : Bool)
    (i : Nat) (cds : List (ContentDescriptor Schema)) : List (ContentDescriptor Schema) :=
  ((cds.enumFrom i).filter
      (fun p => !skipped o.ContentDescriptorSkipFn isArgs p.1 p.2)).map
    (fun p => applyContentDescriptorMutations o.ContentDescriptorMutationFns isArgs p.1 p.2)

/-- The schema mutators of `o` accept the schema of every type of `tys`. -/
def SchemaMutationsPass {Ty Schema : Type} (env : Env Ty Schema)
    (o : DocumentProviderParseOpts Schema) (tys : List Ty) : Prop :=
  ∀ ty ∈ tys, ∃ sch,
    applySchemaMutations o.SchemaMutationFns (env.typeToSchema (some o) ty) = .ok sch

/-- The calls of the schema mutators `fns` on the schema `sch`: mutator `k` is
called once, on what the mutators before it made of `sch`. -/
def schemaCalls {Schema : Type} (fns : List (Schema → Schema × Option GoError))
    (sch : Schema) : List (HookCall Schema) :=
  (List.range fns.length).map
    (fun k => .schemaMutation k ((fns.take k).foldl (fun s mutation => (mutation s).1) sch))

/-- The call of the skip predicate on a freshly built descriptor; none when no
predicate is configured. -/
def skipCalls {Schema : Type}
    (skipFn : Option (Bool → Nat → ContentDescriptor Schema → Bool))
    (isArgs : Bool) (i : Nat) (cd : ContentDescriptor Schema) : List (HookCall Schema) :=
  match skipFn with
  | none => []
  | some _ => [.skip isArgs i cd]

/-- The calls of the content-descriptor mutators `fns` on the descriptor `cd`
of position `i`: mutator `k` is called once, with the position `i` and what the
mutators before it made of `cd`. -/
def mutationCalls {Schema : Type}
    (fns : List (Bool → Nat → ContentDescriptor Schema → ContentDescriptor Schema))
    (isArgs : Bool) (i : Nat) (cd : ContentDescriptor Schema) : List (HookCall Schema) :=
  (List.range fns.length).map
    (fun k => .mutation k isArgs i (applyContentDescriptorMutations (fns.take k) isArgs i cd))

/-- The calls made for position `i`, of runtime type `ty` and freshly built
descriptor `cd`: the schema mutators, then the skip predicate on `cd`, then,
unless it answered true, the content-descriptor mutators. -/
def positionCalls {Ty Schema : Type} (env : Env Ty Schema)
    (o : DocumentProviderParseOpts Schema) (isArgs : Bool) (i : Nat) (ty : Ty)
    (cd : ContentDescriptor Schema) : List (HookCall Schema) :=
  schemaCalls o.SchemaMutationFns (env.typeToSchema (some o) ty) ++
    skipCalls o.ContentDescriptorSkipFn isArgs i cd ++
    (if skipped o.ContentDescriptorSkipFn isArgs i cd then []
     else mutationCalls o.ContentDescriptorMutationFns isArgs i cd)

/-- The calls made for the positions `i, i+1, ...` of runtime types `tys` and
freshly built descriptors `cds`, position after position. -/
def callsFrom {Ty Schema : Type} (env : Env Ty Schema)
    (o : DocumentProviderParseOpts Schema) (isArgs : Bool) (i : Nat) (tys : List Ty)
    (cds : List (ContentDescriptor Schema)) : List (HookCall Schema) :=
  ((tys.zip cds).enumFrom i).flatMap
    (fun p => positionCalls env o isArgs p.1 p.2.1 p.2.2)

/-! ## Facts about `strings.Contains` -/

theorem hasPrefixChars_iff (s p : List Char) :
    hasPrefixChars s p = true ↔ p <+: s := by
  induction s generalizing p with
  | nil =>
    cases p with
    | nil => simp [hasPrefixChars]
    | cons d p => simp [hasPrefixChars]
  | cons c s ih =>
    cases p with
    | nil => simp [hasPrefixChars]
    | cons d p =>
      simp only [hasPrefixChars, Bool.and_eq_true, beq_iff_eq, ih, List.cons_prefix_cons]
      constructor
      · rintro ⟨h1, h2⟩
        exact ⟨h1.symm, h2⟩
      · rintro ⟨h1, h2⟩
        exact ⟨h1.symm, h2⟩

theorem containsChars_iff (s p : List Char) :
    containsChars s p = true ↔ p <:+: s := by
  induction s with
  | nil =>
    simp only [containsChars, hasPrefixChars_iff]
    constructor
    · intro h
      exact h.isInfix
    · intro h
      have : p = [] := List.eq_nil_of_infix_nil h
      subst this
      exact List.prefix_refl _
  | cons c s ih =>
    simp only [containsChars, Bool.or_eq_true, hasPrefixChars_iff, ih, List.infix_cons_iff]

theorem stringsContains_append_mid (a b c : String) :
    stringsContains (a ++ b ++ c) b = true := by
  unfold stringsContains
  rw [containsChars_iff]
  simp only [String.data_append]
  exact ⟨a.data, c.data, rfl⟩

theorem stringsContains_append_right (a b : String) :
    stringsContains (a ++ b) b = true := by
  unfold stringsContains
  rw [containsChars_iff]
  simp only [String.data_append]
  exact ⟨a.data, [], by simp⟩

/-! ## Facts about the closures of `makeEthereumMethod` -/

theorem applySchemaMutations_ne_panic {Schema : Type}
    (fns : List (Schema → Schema × Option GoError)) (sch : Schema) (p : GoPanic) :
    applySchemaMutations fns sch ≠ .panic p := by
  induction fns generalizing sch with
  | nil => simp [applySchemaMutations]
  | cons mutation rest ih =>
    unfold applySchemaMutations
    rcases hm : mutation sch with ⟨sch1, _ | err⟩
    · simpa using ih sch1
    · simp

theorem applySchemaMutations_error_mem {Schema : Type}
    (fns : List (Schema → Schema × Option GoError)) (sch : Schema) (e : GoError)
    (h : applySchemaMutations fns sch = .error e) :
    ∃ mutation ∈ fns, ∃ s, (mutation s).2 = some e := by
  induction fns generalizing sch with
  | nil => simp [applySchemaMutations] at h
  | cons mutation rest ih =>
    unfold applySchemaMutations at h
    rcases hm : mutation sch with ⟨sch1, _ | err⟩
    · rw [hm] at h
      simp only at h
      obtain ⟨m, hmem, s, hs⟩ := ih sch1 h
      exact ⟨m, List.mem_cons_of_mem _ hmem, s, hs⟩
    · rw [hm] at h
      simp only [Outcome.error.injEq] at h
      subst h
      exact ⟨mutation, List.mem_cons_self _ _, sch, by rw [hm]⟩

theorem contentDescriptor_some {Ty Schema : Type} (env : Env Ty Schema)
    (o : DocumentProviderParseOpts Schema) (ty : Ty) (f : NamedField) :
    contentDescriptor env (some o) ty f =
      match applySchemaMutations o.SchemaMutationFns (env.typeToSchema (some o) ty) with
      | .error err => .error err
      | .panic p => .panic p
      | .ok sch1 =>
        .ok { Name := f.Name
              Summary := CommentGroup.Text f.Field.Comment
              Required := true
              Description := env.fullTypeDescription ty
              Schema := sch1 } := by
  unfold contentDescriptor
  by_cases hlen : o.SchemaMutationFns.length > 0
  · simp only [hlen, if_true]
  · have hnil : o.SchemaMutationFns = [] := by
      cases hfn : o.SchemaMutationFns with
      | nil => rfl
      | cons a l => rw [hfn] at hlen; simp at hlen
    simp [hnil, applySchemaMutations]

theorem contentDescriptor_ne_panic {Ty Schema : Type} (env : Env Ty Schema)
    (o : DocumentProviderParseOpts Schema) (ty : Ty) (f : NamedField) (p : GoPanic) :
    contentDescriptor env (some o) ty f ≠ .panic p := by
  rw [contentDescriptor_some]
  cases h : applySchemaMutations o.SchemaMutationFns (env.typeToSchema (some o) ty) with
  | ok s => simp
  | error e => simp
  | panic q => exact absurd h (applySchemaMutations_ne_panic _ _ _)

theorem contentDescriptor_ok_of_pass {Ty Schema : Type} (env : Env Ty Schema)
    (o : DocumentProviderParseOpts Schema) (ty : Ty) (f : NamedField) (sch : Schema)
    (h : applySchemaMutations o.SchemaMutationFns (env.typeToSchema (some o) ty) = .ok sch) :
    contentDescriptor env (some o) ty f =
      .ok { Name := f.Name
            Summary := CommentGroup.Text f.Field.Comment
            Required := true
            Description := env.fullTypeDescription ty
            Schema := sch } := by
  rw [contentDescriptor_some, h]

theorem contentDescriptor_error_of_fail {Ty Schema : Type} (env : Env Ty Schema)
    (o : DocumentProviderParseOpts Schema) (ty : Ty) (f : NamedField) (e : GoError)
    (h : applySchemaMutations o.SchemaMutationFns (env.typeToSchema (some o) ty) = .error e) :
    contentDescriptor env (some o) ty f = .error e := by
  rw [contentDescriptor_some, h]

/-- The descriptors exist as soon as the schema mutators pass. -/
theorem built_of_pass {Ty Schema : Type} (env : Env Ty Schema)
    (o : DocumentProviderParseOpts Schema) (tys : List Ty) (astFields : List NamedField)
    (h : SchemaMutationsPass env o tys) :
    ∃ cds, Built env (some o) tys astFields cds := by
  induction tys generalizing astFields with
  | nil => exact ⟨[], by simp [Built]⟩
  | cons a rest ih =>
    cases astFields with
    | nil => exact ⟨[], by simp [Built]⟩
    | cons f fs =>
      obtain ⟨sch, hs⟩ := h a (List.mem_cons_self _ _)
      obtain ⟨cds, hc⟩ := ih fs (fun ty hty => h ty (List.mem_cons_of_mem _ hty))
      refine ⟨{ Name := f.Name
                Summary := CommentGroup.Text f.Field.Comment
                Required := true
                Description := env.fullTypeDescription a
                Schema := sch } :: cds, ?_⟩
      unfold Built at hc ⊢
      simp only [List.zip_cons_cons]
      exact List.Forall₂.cons (contentDescriptor_ok_of_pass env o a f sch hs) hc

theorem built_length {Ty Schema : Type} (env : Env Ty Schema)
    (opts : Option (DocumentProviderParseOpts Schema)) (tys : List Ty)
    (astFields : List NamedField) (cds : List (ContentDescriptor Schema))
    (h : Built env opts tys astFields cds) (hlen : tys.length ≤ astFields.length) :
    cds.length = tys.length := by
  have := List.Forall₂.length_eq h
  rw [List.length_zip] at this
  omega

theorem built_getElem {Ty Schema : Type} (env : Env Ty Schema)
    (opts : Option (DocumentProviderParseOpts Schema)) (tys : List Ty)
    (astFields : List NamedField) (cds : List (ContentDescriptor Schema))
    (h : Built env opts tys astFields cds) (i : Nat) (ty : Ty) (f : NamedField)
    (hty : tys[i]? = some ty) (hf : astFields[i]? = some f) :
    ∃ cd, cds[i]? = some cd ∧ contentDescriptor env opts ty f = .ok cd := by
  induction tys generalizing astFields cds i with
  | nil => simp at hty
  | cons a rest ih =>
    cases astFields with
    | nil => simp at hf
    | cons g fs =>
      unfold Built at h
      simp only [List.zip_cons_cons] at h
      cases h with
      | cons hhead htail =>
        cases i with
        | zero =>
          simp only [List.getElem?_cons_zero, Option.some.injEq] at hty hf
          subst hty
          subst hf
          exact ⟨_, by simp, hhead⟩
        | succ k =>
          simp only [List.getElem?_cons_succ] at hty hf ⊢
          exact ih fs _ htail k hty hf

theorem drop_eq_cons_of_lt {α : Type} (l : List α) (i : Nat) (h : i < l.length) :
    ∃ x, l[i]? = some x ∧ l.drop i = x :: l.drop (i + 1) := by
  refine ⟨l[i], List.getElem?_eq_getElem h, ?_⟩
  exact List.drop_eq_getElem_cons h

/-- With the descriptors of all remaining positions built, the loop returns
the slice it was given followed by the surviving descriptors. -/
theorem descriptorLoop_ok {Ty Schema : Type} (env : Env Ty Schema)
    (o : DocumentProviderParseOpts Schema) (isArgs : Bool) (astFields : List NamedField)
    (tys : List Ty) (i : Nat) (out cds : List (ContentDescriptor Schema))
    (hb : Built env (some o) tys (astFields.drop i) cds)
    (hlen : tys.length ≤ astFields.length - i) :
    descriptorLoop env (some o) isArgs astFields o.ContentDescriptorSkipFn i tys out =
      .ok (out ++ survivorsFrom o isArgs i cds) := by
  induction tys generalizing i out cds with
  | nil =>
    unfold Built at hb
    simp only [List.zip_nil_left, List.forall₂_nil_left_iff] at hb
    subst hb
    simp [descriptorLoop, survivorsFrom]
  | cons a rest ih =>
    simp only [List.length_cons] at hlen
    have hi : i < astFields.length := by omega
    obtain ⟨f, hf, hdrop⟩ := drop_eq_cons_of_lt astFields i hi
    unfold Built at hb
    rw [hdrop, List.zip_cons_cons] at hb
    cases hb with
    | cons hhead htail =>
      rename_i cd cds1
      simp only at hhead
      have hrec := fun out1 => ih (i + 1) out1 cds1 htail (by omega)
      unfold descriptorLoop
      simp only [hf, hhead]
      by_cases hs : skipped o.ContentDescriptorSkipFn isArgs i cd = true
      · simp only [hs, if_true]
        rw [hrec]
        simp [survivorsFrom, List.enumFrom_cons, List.filter_cons, hs]
      · have hs1 : skipped o.ContentDescriptorSkipFn isArgs i cd = false := by
          simpa using hs
        simp only [hs1, Bool.false_eq_true, if_false]
        rw [hrec]
        simp [survivorsFrom, List.enumFrom_cons, List.filter_cons, hs1]

/-- The loop returns a slice only if a static field exists at every position
it ranges over. -/
theorem descriptorLoop_ok_arity {Ty Schema : Type} (env : Env Ty Schema)
    (opts : Option (DocumentProviderParseOpts Schema)) (isArgs : Bool)
    (astFields : List NamedField)
    (skipFn : Option (Bool → Nat → ContentDescriptor Schema → Bool))
    (tys : List Ty) (i : Nat) (out r : List (ContentDescriptor Schema))
    (h : descriptorLoop env opts isArgs astFields skipFn i tys out = .ok r) :
    tys.length ≤ astFields.length - i := by
  induction tys generalizing i out with
  | nil => simp
  | cons a rest ih =>
    unfold descriptorLoop at h
    cases hf : astFields[i]? with
    | none => rw [hf] at h; simp at h
    | some f =>
      have hi : i < astFields.length := by
        by_contra hcon
        rw [List.getElem?_eq_none (by omega)] at hf
        simp at hf
      rw [hf] at h
      simp only at h
      cases hc : contentDescriptor env opts a f with
      | error e => rw [hc] at h; simp at h
      | panic p => rw [hc] at h; simp at h
      | ok cd =>
        rw [hc] at h
        simp only at h
        have key : rest.length ≤ astFields.length - (i + 1) := by
          by_cases hs : skipped skipFn isArgs i cd = true
          · simp only [hs, if_true] at h
            exact ih _ _ h
          · simp only [hs] at h
            cases opts with
            | none => simp at h
            | some o => exact ih _ _ h
        simp only [List.length_cons]
        omega

/-- With passing schema mutators, the loop aborts with an index-out-of-range
panic at the first position past the end of the static field list. -/
theorem descriptorLoop_panic_of_short {Ty Schema : Type} (env : Env Ty Schema)
    (o : DocumentProviderParseOpts Schema) (isArgs : Bool) (astFields : List NamedField)
    (skipFn : Option (Bool → Nat → ContentDescriptor Schema → Bool))
    (tys : List Ty) (i : Nat) (out : List (ContentDescriptor Schema))
    (hpass : SchemaMutationsPass env o tys)
    (hi : i ≤ astFields.length) (hshort : astFields.length - i < tys.length) :
    descriptorLoop env (some o) isArgs astFields skipFn i tys out =
      .panic (.indexOutOfRange astFields.length astFields.length) := by
  induction tys generalizing i out with
  | nil => simp at hshort
  | cons a rest ih =>
    simp only [List.length_cons] at hshort
    unfold descriptorLoop
    by_cases hlt : i < astFields.length
    · obtain ⟨f, hf, _⟩ := drop_eq_cons_of_lt astFields i hlt
      obtain ⟨sch, hsch⟩ := hpass a (List.mem_cons_self _ _)
      have hrest : SchemaMutationsPass env o rest :=
        fun ty hty => hpass ty (List.mem_cons_of_mem _ hty)
      simp only [hf, contentDescriptor_ok_of_pass env o a f sch hsch]
      split
      · exact ih (i + 1) _ hrest (by omega) (by omega)
      · exact ih (i + 1) _ hrest (by omega) (by omega)
    · have hieq : i = astFields.length := by omega
      subst hieq
      simp

/-- With enough static fields, a schema-mutator failure at any position makes
the loop return the error of the first failing position. -/
theorem descriptorLoop_error_of_fail {Ty Schema : Type} (env : Env Ty Schema)
    (o : DocumentProviderParseOpts Schema) (isArgs : Bool) (astFields : List NamedField)
    (skipFn : Option (Bool → Nat → ContentDescriptor Schema → Bool))
    (tys : List Ty) (i : Nat) (out : List (ContentDescriptor Schema))
    (hlen : tys.length ≤ astFields.length - i)
    (hfail : ∃ ty ∈ tys, ∃ e,
      applySchemaMutations o.SchemaMutationFns (env.typeToSchema (some o) ty) = .error e) :
    ∃ ty ∈ tys, ∃ e,
      applySchemaMutations o.SchemaMutationFns (env.typeToSchema (some o) ty) = .error e ∧
      descriptorLoop env (some o) isArgs astFields skipFn i tys out = .error e := by
  induction tys generalizing i out with
  | nil =>
    obtain ⟨ty, hty, _⟩ := hfail
    simp at hty
  | cons a rest ih =>
    simp only [List.length_cons] at hlen
    have hi : i < astFields.length := by omega
    obtain ⟨f, hf, _⟩ := drop_eq_cons_of_lt astFields i hi
    cases ha : applySchemaMutations o.SchemaMutationFns (env.typeToSchema (some o) a) with
    | panic p => exact absurd ha (applySchemaMutations_ne_panic _ _ _)
    | error e =>
      refine ⟨a, List.mem_cons_self _ _, e, ha, ?_⟩
      unfold descriptorLoop
      simp only [hf, contentDescriptor_error_of_fail env o a f e ha]
    | ok sch =>
      have hfail1 : ∃ ty ∈ rest, ∃ e,
          applySchemaMutations o.SchemaMutationFns (env.typeToSchema (some o) ty) = .error e := by
        obtain ⟨ty, hty, e, he⟩ := hfail
        rcases List.mem_cons.mp hty with heq | hmem
        · subst heq
          rw [ha] at he
          simp at he
        · exact ⟨ty, hmem, e, he⟩
      unfold descriptorLoop
      simp only [hf, contentDescriptor_ok_of_pass env o a f sch ha]
      split
      · obtain ⟨ty, hty, e, he, hl⟩ := ih (i + 1) out (by omega) hfail1
        exact ⟨ty, List.mem_cons_of_mem _ hty, e, he, hl⟩
      · obtain ⟨ty, hty, e, he, hl⟩ := ih (i + 1) _ (by omega) hfail1
        exact ⟨ty, List.mem_cons_of_mem _ hty, e, he, hl⟩

theorem rets_ok {Ty Schema : Type} (env : Env Ty Schema)
    (o : DocumentProviderParseOpts Schema) (pcb : parsedCallback Ty)
    (retCds : List (ContentDescriptor Schema))
    (hR : pcb.cb.getRetTypes.length ≤ (retASTFields env pcb).length)
    (hrets : Built env (some o) pcb.cb.getRetTypes (retASTFields env pcb) retCds) :
    ∃ tl, rets env (some o) pcb o.ContentDescriptorSkipFn =
      .ok ((survivorsFrom o false 0 retCds).headD env.nullContentDescriptor :: tl) := by
  unfold rets
  rw [descriptorLoop_ok env o false (retASTFields env pcb) pcb.cb.getRetTypes 0 [] retCds
    (by simpa using hrets) (by simpa using hR)]
  cases hsv : survivorsFrom o false 0 retCds with
  | nil => exact ⟨[], by simp⟩
  | cons x xs => exact ⟨xs, by simp⟩

/-- The Method `makeEthereumMethod` returns when the options are not nil, every
runtime position has a static field and every descriptor is built. -/
theorem makeEthereumMethod_ok {Ty Schema : Type} (env : Env Ty Schema)
    (o : DocumentProviderParseOpts Schema) (name : String) (pcb : parsedCallback Ty)
    (argCds retCds : List (ContentDescriptor Schema))
    (hP : pcb.cb.getArgTypes.length ≤ (argASTFields env pcb).length)
    (hR : pcb.cb.getRetTypes.length ≤ (retASTFields env pcb).length)
    (hargs : Built env (some o) pcb.cb.getArgTypes (argASTFields env pcb) argCds)
    (hrets : Built env (some o) pcb.cb.getRetTypes (retASTFields env pcb) retCds) :
    makeEthereumMethod env (some o) name pcb =
      .ok { Name := name
            Summary := env.methodSummary pcb.fdecl
            Description := description pcb
            ExternalDocs :=
              { Description := "line=" ++ toString pcb.runtimeF.line
                URL := "file://" ++ pcb.runtimeF.file }
            Params := survivorsFrom o true 0 argCds
            Result := some ((survivorsFrom o false 0 retCds).headD env.nullContentDescriptor)
            Deprecated := env.methodDeprecated pcb.fdecl } := by
  obtain ⟨tl, hr⟩ := rets_ok env o pcb retCds hR hrets
  unfold makeEthereumMethod
  simp only [hr]
  unfold params
  rw [descriptorLoop_ok env o true (argASTFields env pcb) pcb.cb.getArgTypes 0 [] argCds
    (by simpa using hargs) (by simpa using hP)]
  simp

theorem pass_append_left {Ty Schema : Type} (env : Env Ty Schema)
    (o : DocumentProviderParseOpts Schema) (xs ys : List Ty)
    (h : SchemaMutationsPass env o (xs ++ ys)) : SchemaMutationsPass env o xs :=
  fun ty hty => h ty (List.mem_append_left _ hty)

theorem pass_append_right {Ty Schema : Type} (env : Env Ty Schema)
    (o : DocumentProviderParseOpts Schema) (xs ys : List Ty)
    (h : SchemaMutationsPass env o (xs ++ ys)) : SchemaMutationsPass env o ys :=
  fun ty hty => h ty (List.mem_append_right _ hty)

/-! ### The surviving descriptors when nothing is skipped -/

theorem survivorsFrom_no_skip {Schema : Type} (o : DocumentProviderParseOpts Schema)
    (isArgs : Bool) (i : Nat) (cds : List (ContentDescriptor Schema))
    (hskip : ∀ k cd, cds[k]? = some cd →
      skipped o.ContentDescriptorSkipFn isArgs (i + k) cd = false) :
    survivorsFrom o isArgs i cds =
      (cds.enumFrom i).map
        (fun p => applyContentDescriptorMutations o.ContentDescriptorMutationFns isArgs p.1 p.2) := by
  unfold survivorsFrom
  congr 1
  rw [List.filter_eq_self]
  intro p hp
  obtain ⟨k, hk⟩ := List.mem_iff_getElem?.mp hp
  rw [List.getElem?_enumFrom] at hk
  cases hc : cds[k]? with
  | none => rw [hc] at hk; simp at hk
  | some cd =>
    rw [hc] at hk
    simp only [Option.map_some', Option.some.injEq] at hk
    subst hk
    simp [hskip k cd hc]

theorem getElem?_map_enumFrom {α β : Type} (g : Nat × α → β) (i k : Nat) (l : List α) :
    ((l.enumFrom i).map g)[k]? = (l[k]?).map (fun x => g (i + k, x)) := by
  rw [List.getElem?_map, List.getElem?_enumFrom]
  cases l[k]? <;> simp

/-- A returned Method means the options were not nil and both loops returned
a slice. -/
theorem makeEthereumMethod_ok_inv {Ty Schema : Type} (env : Env Ty Schema)
    (opts : Option (DocumentProviderParseOpts Schema)) (name : String)
    (pcb : parsedCallback Ty) (m : Method Schema)
    (h : makeEthereumMethod env opts name pcb = .ok m) :
    ∃ o ps rs, opts = some o ∧
      descriptorLoop env opts true (argASTFields env pcb) o.ContentDescriptorSkipFn 0
        pcb.cb.getArgTypes [] = .ok ps ∧
      descriptorLoop env opts false (retASTFields env pcb) o.ContentDescriptorSkipFn 0
        pcb.cb.getRetTypes [] = .ok rs := by
  unfold makeEthereumMethod at h
  cases opts with
  | none => simp at h
  | some o =>
    simp only at h
    cases hp : params env (some o) pcb o.ContentDescriptorSkipFn with
    | error e => rw [hp] at h; simp at h
    | panic q => rw [hp] at h; simp at h
    | ok ps =>
      rw [hp] at h
      simp only at h
      cases hr : rets env (some o) pcb o.ContentDescriptorSkipFn with
      | error e => rw [hr] at h; simp at h
      | panic q => rw [hr] at h; simp at h
      | ok rs =>
        unfold rets at hr
        cases hl : descriptorLoop env (some o) false (retASTFields env pcb)
            o.ContentDescriptorSkipFn 0 pcb.cb.getRetTypes [] with
        | error e => rw [hl] at hr; simp at hr
        | panic q => rw [hl] at hr; simp at hr
        | ok rs1 => exact ⟨o, ps, rs1, rfl, hp, hl⟩

theorem survivorsFrom_cons {Schema : Type} (o : DocumentProviderParseOpts Schema)
    (isArgs : Bool) (i : Nat) (c : ContentDescriptor Schema)
    (cs : List (ContentDescriptor Schema)) :
    survivorsFrom o isArgs i (c :: cs) =
      if skipped o.ContentDescriptorSkipFn isArgs i c = true then
        survivorsFrom o isArgs (i + 1) cs
      else
        applyContentDescriptorMutations o.ContentDescriptorMutationFns isArgs i c ::
          survivorsFrom o isArgs (i + 1) cs := by
  by_cases hs : skipped o.ContentDescriptorSkipFn isArgs i c = true
  · simp [survivorsFrom, List.enumFrom_cons, List.filter_cons, hs]
  · have hs1 : skipped o.ContentDescriptorSkipFn isArgs i c = false := by simpa using hs
    simp [survivorsFrom, List.enumFrom_cons, List.filter_cons, hs1]

theorem mem_survivorsFrom {Schema : Type} (o : DocumentProviderParseOpts Schema)
    (isArgs : Bool) (i : Nat) (cds : List (ContentDescriptor Schema))
    (d : ContentDescriptor Schema) :
    d ∈ survivorsFrom o isArgs i cds ↔
      ∃ k cd, cds[k]? = some cd ∧
        skipped o.ContentDescriptorSkipFn isArgs (i + k) cd = false ∧
        d = applyContentDescriptorMutations o.ContentDescriptorMutationFns isArgs (i + k) cd := by
  induction cds generalizing i with
  | nil => simp [survivorsFrom]
  | cons c cs ih =>
    rw [survivorsFrom_cons]
    constructor
    · intro hd
      have hrec : d ∈ survivorsFrom o isArgs (i + 1) cs →
          ∃ k cd, (c :: cs)[k]? = some cd ∧
            skipped o.ContentDescriptorSkipFn isArgs (i + k) cd = false ∧
            d = applyContentDescriptorMutations o.ContentDescriptorMutationFns isArgs
              (i + k) cd := by
        intro hmem
        obtain ⟨k, cd, hk, hs, he⟩ := (ih (i + 1)).mp hmem
        refine ⟨k + 1, cd, by simpa using hk, ?_, ?_⟩
        · rw [← hs]; congr 1; omega
        · rw [he]; congr 1; omega
      by_cases hs : skipped o.ContentDescriptorSkipFn isArgs i c = true
      · rw [if_pos hs] at hd
        exact hrec hd
      · rw [if_neg hs] at hd
        rcases List.mem_cons.mp hd with heq | hmem
        · exact ⟨0, c, by simp, by simpa using hs, by simpa using heq⟩
        · exact hrec hmem
    · rintro ⟨k, cd, hk, hs, he⟩
      cases k with
      | zero =>
        simp only [List.getElem?_cons_zero, Option.some.injEq] at hk
        subst hk
        simp only [Nat.add_zero] at hs he
        simp [hs, he]
      | succ k =>
        simp only [List.getElem?_cons_succ] at hk
        have hmem : d ∈ survivorsFrom o isArgs (i + 1) cs := by
          refine (ih (i + 1)).mpr ⟨k, cd, hk, ?_, ?_⟩
          · rw [← hs]; congr 1; omega
          · rw [he]; congr 1; omega
        split
        · exact hmem
        · exact List.mem_cons_of_mem _ hmem

theorem applyContentDescriptorMutations_cons {Schema : Type}
    (fn : Bool → Nat → ContentDescriptor Schema → ContentDescriptor Schema)
    (rest : List (Bool → Nat → ContentDescriptor Schema → ContentDescriptor Schema))
    (isArgs : Bool) (i : Nat) (cd : ContentDescriptor Schema) :
    applyContentDescriptorMutations (fn :: rest) isArgs i cd =
      applyContentDescriptorMutations rest isArgs i (fn isArgs i cd) := rfl

/-- The first entry of the processed return list, or the placeholder. -/
theorem headD_survivorsFrom {Schema : Type} (o : DocumentProviderParseOpts Schema)
    (isArgs : Bool) (i : Nat) (cds : List (ContentDescriptor Schema))
    (null : ContentDescriptor Schema) :
    (survivorsFrom o isArgs i cds).headD null = null ∨
      ∃ k cd, cds[k]? = some cd ∧
        skipped o.ContentDescriptorSkipFn isArgs (i + k) cd = false ∧
        (survivorsFrom o isArgs i cds).headD null =
          applyContentDescriptorMutations o.ContentDescriptorMutationFns isArgs (i + k) cd := by
  cases hsv : survivorsFrom o isArgs i cds with
  | nil => exact Or.inl rfl
  | cons x xs =>
    right
    have hx : x ∈ survivorsFrom o isArgs i cds := by rw [hsv]; exact List.mem_cons_self _ _
    obtain ⟨k, cd, hk, hs, he⟩ := (mem_survivorsFrom o isArgs i cds x).mp hx
    exact ⟨k, cd, hk, hs, by simpa using he⟩

/-- With enough static fields, a schema-mutator failure on any parameter or
return type makes `makeEthereumMethod` return that mutator error. -/
theorem makeEthereumMethod_error_of_fail {Ty Schema : Type} (env : Env Ty Schema)
    (o : DocumentProviderParseOpts Schema) (name : String) (pcb : parsedCallback Ty)
    (hP : pcb.cb.getArgTypes.length ≤ (argASTFields env pcb).length)
    (hR : pcb.cb.getRetTypes.length ≤ (retASTFields env pcb).length)
    (hfail : ∃ ty ∈ pcb.cb.getArgTypes ++ pcb.cb.getRetTypes, ∃ e,
      applySchemaMutations o.SchemaMutationFns (env.typeToSchema (some o) ty) = .error e) :
    ∃ ty ∈ pcb.cb.getArgTypes ++ pcb.cb.getRetTypes, ∃ e,
      applySchemaMutations o.SchemaMutationFns (env.typeToSchema (some o) ty) = .error e ∧
      makeEthereumMethod env (some o) name pcb = .error e := by
  by_cases hA : ∃ ty ∈ pcb.cb.getArgTypes, ∃ e,
      applySchemaMutations o.SchemaMutationFns (env.typeToSchema (some o) ty) = .error e
  · obtain ⟨ty, hty, e, he, hl⟩ := descriptorLoop_error_of_fail env o true
      (argASTFields env pcb) o.ContentDescriptorSkipFn pcb.cb.getArgTypes 0 []
      (by simpa using hP) hA
    refine ⟨ty, List.mem_append_left _ hty, e, he, ?_⟩
    have hparams : params env (some o) pcb o.ContentDescriptorSkipFn = .error e := hl
    unfold makeEthereumMethod
    simp only [hparams]
  · have hpassA : SchemaMutationsPass env o pcb.cb.getArgTypes := by
      intro ty hty
      cases hc : applySchemaMutations o.SchemaMutationFns (env.typeToSchema (some o) ty) with
      | ok sch => exact ⟨sch, rfl⟩
      | error e => exact absurd ⟨ty, hty, e, hc⟩ hA
      | panic q => exact absurd hc (applySchemaMutations_ne_panic _ _ _)
    have hB : ∃ ty ∈ pcb.cb.getRetTypes, ∃ e,
        applySchemaMutations o.SchemaMutationFns (env.typeToSchema (some o) ty) = .error e := by
      obtain ⟨ty, hty, e, he⟩ := hfail
      rcases List.mem_append.mp hty with h | h
      · exact absurd ⟨ty, h, e, he⟩ hA
      · exact ⟨ty, h, e, he⟩
    obtain ⟨argCds, hargs⟩ := built_of_pass env o pcb.cb.getArgTypes (argASTFields env pcb)
      hpassA
    obtain ⟨ty, hty, e, he, hl⟩ := descriptorLoop_error_of_fail env o false
      (retASTFields env pcb) o.ContentDescriptorSkipFn pcb.cb.getRetTypes 0 []
      (by simpa using hR) hB
    refine ⟨ty, List.mem_append_right _ hty, e, he, ?_⟩
    have hparams : params env (some o) pcb o.ContentDescriptorSkipFn =
        .ok ([] ++ survivorsFrom o true 0 argCds) := by
      unfold params
      exact descriptorLoop_ok env o true (argASTFields env pcb) pcb.cb.getArgTypes 0 []
        argCds (by simpa using hargs) (by simpa using hP)
    have hrets : rets env (some o) pcb o.ContentDescriptorSkipFn = .error e := by
      unfold rets
      rw [hl]
    unfold makeEthereumMethod
    simp only [hparams, hrets]

theorem contentDescriptor_ok_fields {Ty Schema : Type} (env : Env Ty Schema)
    (opts : Option (DocumentProviderParseOpts Schema)) (ty : Ty) (f : NamedField)
    (cd : ContentDescriptor Schema) (h : contentDescriptor env opts ty f = .ok cd) :
    cd.Name = f.Name ∧ cd.Summary = CommentGroup.Text f.Field.Comment ∧
      cd.Description = env.fullTypeDescription ty ∧ cd.Required = true := by
  unfold contentDescriptor at h
  simp only at h
  split at h
  · exact Outcome.noConfusion h
  · exact Outcome.noConfusion h
  · simp only [Outcome.ok.injEq] at h
    subst h
    exact ⟨rfl, rfl, rfl, rfl⟩

/-- The first entry of the processed list is the descriptor of the lowest
position that is not skipped. -/
theorem headD_survivorsFrom_first {Schema : Type} (o : DocumentProviderParseOpts Schema)
    (isArgs : Bool) (i : Nat) (cds : List (ContentDescriptor Schema))
    (null : ContentDescriptor Schema) (k : Nat) (cd : ContentDescriptor Schema)
    (hk : cds[k]? = some cd)
    (hs : skipped o.ContentDescriptorSkipFn isArgs (i + k) cd = false)
    (hbefore : ∀ j cd1, j < k → cds[j]? = some cd1 →
      skipped o.ContentDescriptorSkipFn isArgs (i + j) cd1 = true) :
    (survivorsFrom o isArgs i cds).headD null =
      applyContentDescriptorMutations o.ContentDescriptorMutationFns isArgs (i + k) cd := by
  induction cds generalizing i k with
  | nil => simp at hk
  | cons c cs ih =>
    rw [survivorsFrom_cons]
    cases k with
    | zero =>
      simp only [List.getElem?_cons_zero, Option.some.injEq] at hk
      subst hk
      simp only [Nat.add_zero] at hs ⊢
      simp [hs]
    | succ k =>
      simp only [List.getElem?_cons_succ] at hk
      have h0 : skipped o.ContentDescriptorSkipFn isArgs i c = true := by
        simpa using hbefore 0 c (by omega) (by simp)
      rw [if_pos h0]
      have harith : i + (k + 1) = i + 1 + k := by omega
      rw [harith] at hs ⊢
      apply ih (i + 1) k hk hs
      intro j cd1 hj hcd1
      have := hbefore (j + 1) cd1 (by omega) (by simpa using hcd1)
      have harith2 : i + (j + 1) = i + 1 + j := by omega
      rw [harith2] at this
      exact this

theorem survivorsFrom_eq_nil {Schema : Type} (o : DocumentProviderParseOpts Schema)
    (isArgs : Bool) (i : Nat) (cds : List (ContentDescriptor Schema))
    (hall : ∀ k cd, cds[k]? = some cd →
      skipped o.ContentDescriptorSkipFn isArgs (i + k) cd = true) :
    survivorsFrom o isArgs i cds = [] := by
  rw [List.eq_nil_iff_forall_not_mem]
  intro d hd
  obtain ⟨k, cd, hk, hs, _⟩ := (mem_survivorsFrom o isArgs i cds d).mp hd
  rw [hall k cd hk] at hs
  exact Bool.noConfusion hs

/-! ## The claims -/

/-- C1: for a handler with P runtime parameter types and R ≥ 1 runtime return
types whose static field lists are at least as long, built with options that
have no skip predicate and whose schema mutators fail on none of its types,
`makeEthereumMethod` returns a Method whose `Params` has exactly P entries,
entry `i` being the descriptor built from parameter type `i` and static
parameter field `i` (as left by the configured content-descriptor mutators,
hence that descriptor itself when none is configured), and whose `Result` is
the descriptor built from return type 0 and static return field 0. -/
theorem makeEthereumMethod_no_skip {Ty Schema : Type} (env : Env Ty Schema)
    (o : DocumentProviderParseOpts Schema) (name : String) (pcb : parsedCallback Ty)
    (hskip : o.ContentDescriptorSkipFn = none)
    (hP : pcb.cb.getArgTypes.length ≤ (argASTFields env pcb).length)
    (hR : pcb.cb.getRetTypes.length ≤ (retASTFields env pcb).length)
    (hR1 : 1 ≤ pcb.cb.getRetTypes.length)
    (hpass : SchemaMutationsPass env o (pcb.cb.getArgTypes ++ pcb.cb.getRetTypes)) :
    ∃ m, makeEthereumMethod env (some o) name pcb = .ok m ∧
      m.Params.length = pcb.cb.getArgTypes.length ∧
      (∀ i ty f, pcb.cb.getArgTypes[i]? = some ty → (argASTFields env pcb)[i]? = some f →
        ∃ cd, contentDescriptor env (some o) ty f = .ok cd ∧
          m.Params[i]? =
            some (applyContentDescriptorMutations o.ContentDescriptorMutationFns true i cd) ∧
          (o.ContentDescriptorMutationFns = [] → m.Params[i]? = some cd)) ∧
      (∃ ty f cd, pcb.cb.getRetTypes[0]? = some ty ∧ (retASTFields env pcb)[0]? = some f ∧
          contentDescriptor env (some o) ty f = .ok cd ∧
          m.Result =
            some (applyContentDescriptorMutations o.ContentDescriptorMutationFns false 0 cd) ∧
          (o.ContentDescriptorMutationFns = [] → m.Result = some cd)) := by
  obtain ⟨argCds, hargs⟩ := built_of_pass env o pcb.cb.getArgTypes (argASTFields env pcb)
    (pass_append_left env o _ _ hpass)
  obtain ⟨retCds, hrets⟩ := built_of_pass env o pcb.cb.getRetTypes (retASTFields env pcb)
    (pass_append_right env o _ _ hpass)
  have hns : ∀ (isArgs : Bool) (cds : List (ContentDescriptor Schema)),
      survivorsFrom o isArgs 0 cds =
        (cds.enumFrom 0).map
          (fun p => applyContentDescriptorMutations o.ContentDescriptorMutationFns
            isArgs p.1 p.2) := by
    intro isArgs cds
    apply survivorsFrom_no_skip
    intro k cd _
    rw [hskip]
    rfl
  refine ⟨_, makeEthereumMethod_ok env o name pcb argCds retCds hP hR hargs hrets, ?_, ?_, ?_⟩
  · simp only [hns, List.length_map, List.enumFrom_length]
    exact built_length env (some o) _ _ _ hargs hP
  · intro i ty f hty hf
    obtain ⟨cd, hcd, hb⟩ := built_getElem env (some o) _ _ _ hargs i ty f hty hf
    have hi : (survivorsFrom o true 0 argCds)[i]? =
        some (applyContentDescriptorMutations o.ContentDescriptorMutationFns true i cd) := by
      rw [hns, getElem?_map_enumFrom, hcd]
      simp
    refine ⟨cd, hb, hi, ?_⟩
    intro hnil
    simp only [hi, hnil]
    rfl
  · obtain ⟨ty, hty, _⟩ := drop_eq_cons_of_lt pcb.cb.getRetTypes 0 (by omega)
    obtain ⟨f, hf, _⟩ := drop_eq_cons_of_lt (retASTFields env pcb) 0 (by omega)
    obtain ⟨cd, hcd, hb⟩ := built_getElem env (some o) _ _ _ hrets 0 ty f hty hf
    have h0 : (survivorsFrom o false 0 retCds).headD env.nullContentDescriptor =
        applyContentDescriptorMutations o.ContentDescriptorMutationFns false 0 cd := by
      rw [hns]
      cases retCds with
      | nil => simp at hcd
      | cons x xs =>
        simp only [List.getElem?_cons_zero, Option.some.injEq] at hcd
        subst hcd
        simp [List.enumFrom_cons]
    refine ⟨ty, f, cd, hty, hf, hb, by simp only [h0], ?_⟩
    intro hnil
    simp only [h0, hnil]
    rfl

/-- Witness of C1 on `Add` built with `exOptsNoSkip`: the build returns a
Method with three parameters. -/
theorem makeEthereumMethod_no_skip_witness :
    exOptsNoSkip.ContentDescriptorSkipFn = none ∧
    exAdd.cb.getArgTypes.length ≤ (argASTFields exEnv exAdd).length ∧
    exAdd.cb.getRetTypes.length ≤ (retASTFields exEnv exAdd).length ∧
    1 ≤ exAdd.cb.getRetTypes.length ∧
    SchemaMutationsPass exEnv exOptsNoSkip (exAdd.cb.getArgTypes ++ exAdd.cb.getRetTypes) ∧
    ∃ m, makeEthereumMethod exEnv (some exOptsNoSkip) "Add" exAdd = .ok m ∧
      m.Params.length = 3 :=
  have hpass : SchemaMutationsPass exEnv exOptsNoSkip
      (exAdd.cb.getArgTypes ++ exAdd.cb.getRetTypes) :=
    fun _ _ => ⟨_, rfl⟩
  ⟨rfl, by decide, by decide, by decide, hpass,
    (makeEthereumMethod_no_skip exEnv exOptsNoSkip "Add" exAdd rfl (by decide) (by decide)
      (by decide) hpass).imp (fun _ h => ⟨h.1, h.2.1⟩)⟩

/-- C2, as the code has it: when the runtime parameter types outnumber the
expanded static parameter fields, or the runtime return types the expanded
static return fields, `makeEthereumMethod` returns no Method; with options that
are not nil and schema mutators that pass on every type it does index the
static field list at the first position past its end and aborts with the
index-out-of-range runtime panic instead of returning an error. -/
theorem makeEthereumMethod_arity_mismatch {Ty Schema : Type} (env : Env Ty Schema)
    (opts : Option (DocumentProviderParseOpts Schema)) (name : String)
    (pcb : parsedCallback Ty)
    (h : (argASTFields env pcb).length < pcb.cb.getArgTypes.length ∨
      (retASTFields env pcb).length < pcb.cb.getRetTypes.length) :
    (∀ m, makeEthereumMethod env opts name pcb ≠ .ok m) ∧
    (∀ o, opts = some o →
      SchemaMutationsPass env o (pcb.cb.getArgTypes ++ pcb.cb.getRetTypes) →
      makeEthereumMethod env opts name pcb =
        .panic
          (if (argASTFields env pcb).length < pcb.cb.getArgTypes.length then
            .indexOutOfRange (argASTFields env pcb).length (argASTFields env pcb).length
          else
            .indexOutOfRange (retASTFields env pcb).length (retASTFields env pcb).length)) := by
  constructor
  · intro m hm
    obtain ⟨o, ps, rs, _, hps, hrs⟩ := makeEthereumMethod_ok_inv env opts name pcb m hm
    have h1 := descriptorLoop_ok_arity env opts true _ _ _ 0 [] ps hps
    have h2 := descriptorLoop_ok_arity env opts false _ _ _ 0 [] rs hrs
    omega
  · intro o ho hpass
    subst ho
    by_cases hA : (argASTFields env pcb).length < pcb.cb.getArgTypes.length
    · simp only [hA, if_true]
      have hparams : params env (some o) pcb o.ContentDescriptorSkipFn =
          .panic (.indexOutOfRange (argASTFields env pcb).length
            (argASTFields env pcb).length) := by
        unfold params
        exact descriptorLoop_panic_of_short env o true _ _ _ 0 []
          (pass_append_left env o _ _ hpass) (by omega) (by omega)
      unfold makeEthereumMethod
      simp only [hparams]
    · have hB : (retASTFields env pcb).length < pcb.cb.getRetTypes.length := by
        rcases h with h | h
        · exact absurd h hA
        · exact h
      simp only [hA, if_false]
      obtain ⟨argCds, hargs⟩ := built_of_pass env o pcb.cb.getArgTypes (argASTFields env pcb)
        (pass_append_left env o _ _ hpass)
      have hparams : params env (some o) pcb o.ContentDescriptorSkipFn =
          .ok ([] ++ survivorsFrom o true 0 argCds) := by
        unfold params
        exact descriptorLoop_ok env o true (argASTFields env pcb) pcb.cb.getArgTypes 0 []
          argCds (by simpa using hargs) (by omega)
      have hrets : rets env (some o) pcb o.ContentDescriptorSkipFn =
          .panic (.indexOutOfRange (retASTFields env pcb).length
            (retASTFields env pcb).length) := by
        unfold rets
        rw [descriptorLoop_panic_of_short env o false _ _ _ 0 []
          (pass_append_right env o _ _ hpass) (by omega) (by omega)]
      unfold makeEthereumMethod
      simp only [hparams, hrets]

/-- Witness of the amended C2 on `exShort`, built with options without
hooks. -/
theorem makeEthereumMethod_arity_mismatch_witness :
    ((argASTFields exEnv exShort).length < exShort.cb.getArgTypes.length ∨
      (retASTFields exEnv exShort).length < exShort.cb.getRetTypes.length) ∧
    ∀ m, makeEthereumMethod exEnv (some exEnv.DefaultParseOptions) "Sub" exShort ≠ .ok m :=
  ⟨Or.inl (by decide),
    (makeEthereumMethod_arity_mismatch exEnv (some exEnv.DefaultParseOptions) "Sub" exShort
      (Or.inl (by decide))).1⟩

/-- C2 fails as stated: on `exShort` (two runtime parameter types, one static
parameter field) the build returns no error; it indexes the field list at
position 1, past its end, and panics. -/
theorem makeEthereumMethod_arity_counterexample :
    (argASTFields exEnv exShort).length < exShort.cb.getArgTypes.length ∧
    makeEthereumMethod exEnv (some exEnv.DefaultParseOptions) "Sub" exShort =
      .panic (.indexOutOfRange 1 1) ∧
    ¬ ∃ e, makeEthereumMethod exEnv (some exEnv.DefaultParseOptions) "Sub" exShort =
      .error e := by
  refine ⟨by decide, rfl, ?_⟩
  rintro ⟨e, he⟩
  have hp : makeEthereumMethod exEnv (some exEnv.DefaultParseOptions) "Sub" exShort =
      .panic (.indexOutOfRange 1 1) := rfl
  rw [hp] at he
  exact Outcome.noConfusion he

/-- C3, as the code has it: for a handler with no runtime return type, every
Method `makeEthereumMethod` returns has `Result` set to `nullContentDescriptor`
(never absent), and a Method is returned when, besides the schema mutators
passing on the parameters, the options are not nil and every runtime parameter
has a static field. -/
theorem makeEthereumMethod_no_returns {Ty Schema : Type} (env : Env Ty Schema)
    (opts : Option (DocumentProviderParseOpts Schema)) (name : String)
    (pcb : parsedCallback Ty) (hR0 : pcb.cb.getRetTypes = []) :
    (∀ m, makeEthereumMethod env opts name pcb = .ok m →
      m.Result = some env.nullContentDescriptor) ∧
    (∀ o, opts = some o →
      pcb.cb.getArgTypes.length ≤ (argASTFields env pcb).length →
      SchemaMutationsPass env o pcb.cb.getArgTypes →
      ∃ m, makeEthereumMethod env opts name pcb = .ok m ∧
        m.Result = some env.nullContentDescriptor) := by
  have hrets : ∀ o : DocumentProviderParseOpts Schema,
      rets env opts pcb o.ContentDescriptorSkipFn = .ok [env.nullContentDescriptor] := by
    intro o
    unfold rets
    rw [hR0]
    simp [descriptorLoop]
  have hall : ∀ m, makeEthereumMethod env opts name pcb = .ok m →
      m.Result = some env.nullContentDescriptor := by
    intro m hm
    unfold makeEthereumMethod at hm
    cases opts with
    | none => simp at hm
    | some o =>
      simp only [hrets o] at hm
      cases hp : params env (some o) pcb o.ContentDescriptorSkipFn with
      | error e => rw [hp] at hm; simp at hm
      | panic q => rw [hp] at hm; simp at hm
      | ok ps =>
        rw [hp] at hm
        simp only [List.getElem?_cons_zero, Outcome.ok.injEq] at hm
        rw [← hm]
  refine ⟨hall, ?_⟩
  intro o ho hP hpass
  subst ho
  obtain ⟨argCds, hargs⟩ := built_of_pass env o pcb.cb.getArgTypes (argASTFields env pcb) hpass
  have hm := makeEthereumMethod_ok env o name pcb argCds [] hP (by simp [hR0])
    hargs (by simp [Built, hR0])
  exact ⟨_, hm, hall _ hm⟩

/-- Witness of C3 on `Ping`, built with `exOptsNoSkip`. -/
theorem makeEthereumMethod_no_returns_witness :
    exPing.cb.getRetTypes = [] ∧
    ∃ m, makeEthereumMethod exEnv (some exOptsNoSkip) "Ping" exPing = .ok m ∧
      m.Result = some exEnv.nullContentDescriptor :=
  ⟨rfl, (makeEthereumMethod_no_returns exEnv (some exOptsNoSkip) "Ping" exPing rfl).2
    exOptsNoSkip rfl (by decide) (fun _ _ => ⟨_, rfl⟩)⟩

/-- C3 fails as stated: `exPingNoDecl` has no runtime return type and is built
with options without hooks, so no schema mutator fails on its parameter, yet
the build returns no Method: the declaration has no `Type`, the static
parameter list is empty and indexing it at position 0 panics. The same holds
for `Noop` built with nil options, which panics on the dereference of the
options. -/
theorem makeEthereumMethod_no_returns_counterexample :
    exPingNoDecl.cb.getRetTypes = [] ∧
    SchemaMutationsPass exEnv exEnv.DefaultParseOptions exPingNoDecl.cb.getArgTypes ∧
    makeEthereumMethod exEnv (some exEnv.DefaultParseOptions) "Ping" exPingNoDecl =
      .panic (.indexOutOfRange 0 0) ∧
    (¬ ∃ m, makeEthereumMethod exEnv (some exEnv.DefaultParseOptions) "Ping" exPingNoDecl =
      .ok m) ∧
    exNoop.cb.getRetTypes = [] ∧
    makeEthereumMethod exEnv none "Noop" exNoop = .panic .nilDereference ∧
    ¬ ∃ m, makeEthereumMethod exEnv none "Noop" exNoop = .ok m := by
  refine ⟨rfl, fun _ _ => ⟨_, rfl⟩, rfl, ?_, rfl, rfl, ?_⟩
  · rintro ⟨m, hm⟩
    have hp : makeEthereumMethod exEnv (some exEnv.DefaultParseOptions) "Ping" exPingNoDecl =
        .panic (.indexOutOfRange 0 0) := rfl
    rw [hp] at hm
    exact Outcome.noConfusion hm
  · rintro ⟨m, hm⟩
    have hp : makeEthereumMethod exEnv none "Noop" exNoop = .panic .nilDereference := rfl
    rw [hp] at hm
    exact Outcome.noConfusion hm

/-- C4: for a handler that builds (options not nil, a static field at every
position, schema mutators passing), `Params` is exactly the sequence of the
descriptors of the parameter positions on which the skip predicate, called
with `isArgs = true`, the position and the freshly built descriptor, returned
false, in their original order and with nothing put in place of a dropped
position; when the predicate returns true at position 0 only, `Params` has P-1
entries, entry `j` being the descriptor of position `j+1`. -/
theorem makeEthereumMethod_params_skip {Ty Schema : Type} (env : Env Ty Schema)
    (o : DocumentProviderParseOpts Schema) (name : String) (pcb : parsedCallback Ty)
    (hP : pcb.cb.getArgTypes.length ≤ (argASTFields env pcb).length)
    (hR : pcb.cb.getRetTypes.length ≤ (retASTFields env pcb).length)
    (hpass : SchemaMutationsPass env o (pcb.cb.getArgTypes ++ pcb.cb.getRetTypes)) :
    ∃ m argCds, makeEthereumMethod env (some o) name pcb = .ok m ∧
      Built env (some o) pcb.cb.getArgTypes (argASTFields env pcb) argCds ∧
      argCds.length = pcb.cb.getArgTypes.length ∧
      m.Params =
        ((argCds.enum).filter
            (fun p => !skipped o.ContentDescriptorSkipFn true p.1 p.2)).map
          (fun p =>
            applyContentDescriptorMutations o.ContentDescriptorMutationFns true p.1 p.2) ∧
      ((∀ k cd, argCds[k]? = some cd →
          (skipped o.ContentDescriptorSkipFn true k cd = true ↔ k = 0)) →
        m.Params.length = pcb.cb.getArgTypes.length - 1 ∧
        ∀ j, m.Params[j]? =
          (argCds[j + 1]?).map
            (applyContentDescriptorMutations o.ContentDescriptorMutationFns true (j + 1))) := by
  obtain ⟨argCds, hargs⟩ := built_of_pass env o pcb.cb.getArgTypes (argASTFields env pcb)
    (pass_append_left env o _ _ hpass)
  obtain ⟨retCds, hrets⟩ := built_of_pass env o pcb.cb.getRetTypes (retASTFields env pcb)
    (pass_append_right env o _ _ hpass)
  have hlen := built_length env (some o) _ _ _ hargs hP
  refine ⟨_, argCds, makeEthereumMethod_ok env o name pcb argCds retCds hP hR hargs hrets,
    hargs, hlen, rfl, ?_⟩
  intro hfirst
  simp only
  cases argCds with
  | nil =>
    simp only [List.length_nil] at hlen
    simp [survivorsFrom, ← hlen]
  | cons c cs =>
    have h0 : skipped o.ContentDescriptorSkipFn true 0 c = true :=
      (hfirst 0 c (by simp)).mpr rfl
    have hrest : ∀ k cd, cs[k]? = some cd →
        skipped o.ContentDescriptorSkipFn true (0 + 1 + k) cd = false := by
      intro k cd hk
      have hiff := hfirst (k + 1) cd (by simpa using hk)
      have hne : ¬ skipped o.ContentDescriptorSkipFn true (k + 1) cd = true := by
        intro hcon
        have := hiff.mp hcon
        omega
      have h01 : 0 + 1 + k = k + 1 := by omega
      rw [h01]
      simpa using hne
    rw [survivorsFrom_cons, if_pos h0, survivorsFrom_no_skip o true (0 + 1) cs hrest]
    simp only [List.length_cons] at hlen
    constructor
    · simp only [List.length_map, List.enumFrom_length]
      omega
    · intro j
      rw [getElem?_map_enumFrom]
      simp only [List.getElem?_cons_succ]
      have h01 : 0 + 1 + j = j + 1 := by omega
      rw [h01]

/-- Witness of C4 on `Add`, built with `exOptsSkipFirst`: three descriptors
are built, two parameters are left. -/
theorem makeEthereumMethod_params_skip_witness :
    exAdd.cb.getArgTypes.length ≤ (argASTFields exEnv exAdd).length ∧
    exAdd.cb.getRetTypes.length ≤ (retASTFields exEnv exAdd).length ∧
    SchemaMutationsPass exEnv exOptsSkipFirst
      (exAdd.cb.getArgTypes ++ exAdd.cb.getRetTypes) ∧
    ∃ (m : Method String) (argCds : List (ContentDescriptor String)),
      makeEthereumMethod exEnv (some exOptsSkipFirst) "Add" exAdd = .ok m ∧
        argCds.length = 3 ∧ m.Params.length = 3 - 1 :=
  have hpass : SchemaMutationsPass exEnv exOptsSkipFirst
      (exAdd.cb.getArgTypes ++ exAdd.cb.getRetTypes) :=
    fun _ _ => ⟨_, rfl⟩
  ⟨by decide, by decide, hpass,
    (makeEthereumMethod_params_skip exEnv exOptsSkipFirst "Add" exAdd (by decide) (by decide)
      hpass).imp (fun _ h => h.imp (fun _ hc =>
        ⟨hc.1, hc.2.2.1,
          (hc.2.2.2.2 (fun k cd _ => by simp [skipped, exOptsSkipFirst])).1⟩))⟩

/-- C5: for a handler that builds, every descriptor placed in the Method (each
entry of `Params`, and `Result` unless it is the null placeholder) is the
freshly built descriptor of its position run through the content-descriptor
mutators `m1, ..., mk` in configured order, each mutator receiving what the
mutators before it produced and handing its output to those after it; with the two mutators that append the markers `A` and `B`
to `Description`, the `Description` of every such descriptor is the original
text followed by `A` then `B`. -/
theorem makeEthereumMethod_mutators_compose {Ty Schema : Type} (env : Env Ty Schema)
    (o : DocumentProviderParseOpts Schema) (name : String) (pcb : parsedCallback Ty)
    (hP : pcb.cb.getArgTypes.length ≤ (argASTFields env pcb).length)
    (hR : pcb.cb.getRetTypes.length ≤ (retASTFields env pcb).length)
    (hpass : SchemaMutationsPass env o (pcb.cb.getArgTypes ++ pcb.cb.getRetTypes)) :
    ∃ m argCds retCds, makeEthereumMethod env (some o) name pcb = .ok m ∧
      Built env (some o) pcb.cb.getArgTypes (argASTFields env pcb) argCds ∧
      Built env (some o) pcb.cb.getRetTypes (retASTFields env pcb) retCds ∧
      (∀ d, d ∈ m.Params ↔
        ∃ i cd, argCds[i]? = some cd ∧
          skipped o.ContentDescriptorSkipFn true i cd = false ∧
          d = applyContentDescriptorMutations o.ContentDescriptorMutationFns true i cd) ∧
      (m.Result = some env.nullContentDescriptor ∨
        ∃ i cd, retCds[i]? = some cd ∧
          skipped o.ContentDescriptorSkipFn false i cd = false ∧
          m.Result =
            some (applyContentDescriptorMutations o.ContentDescriptorMutationFns false i cd)) ∧
      (∀ pre fn post, o.ContentDescriptorMutationFns = pre ++ fn :: post →
        ∀ (isArgs : Bool) (i : Nat) (cd : ContentDescriptor Schema),
          applyContentDescriptorMutations o.ContentDescriptorMutationFns isArgs i cd =
            applyContentDescriptorMutations post isArgs i
              (fn isArgs i (applyContentDescriptorMutations pre isArgs i cd))) ∧
      (∀ A B, o.ContentDescriptorMutationFns = [appendDescription A, appendDescription B] →
        (∀ d ∈ m.Params, ∃ (i : Nat) (cd : ContentDescriptor Schema),
          argCds[i]? = some cd ∧ d.Description = cd.Description ++ A ++ B) ∧
        (m.Result = some env.nullContentDescriptor ∨
          ∃ (i : Nat) (cd r : ContentDescriptor Schema),
            retCds[i]? = some cd ∧ m.Result = some r ∧
            r.Description = cd.Description ++ A ++ B)) := by
  obtain ⟨argCds, hargs⟩ := built_of_pass env o pcb.cb.getArgTypes (argASTFields env pcb)
    (pass_append_left env o _ _ hpass)
  obtain ⟨retCds, hrets⟩ := built_of_pass env o pcb.cb.getRetTypes (retASTFields env pcb)
    (pass_append_right env o _ _ hpass)
  have hpar : ∀ d, d ∈ survivorsFrom o true 0 argCds ↔
      ∃ i cd, argCds[i]? = some cd ∧
        skipped o.ContentDescriptorSkipFn true i cd = false ∧
        d = applyContentDescriptorMutations o.ContentDescriptorMutationFns true i cd := by
    intro d
    simpa using mem_survivorsFrom o true 0 argCds d
  have hres : (survivorsFrom o false 0 retCds).headD env.nullContentDescriptor =
        env.nullContentDescriptor ∨
      ∃ i cd, retCds[i]? = some cd ∧
        skipped o.ContentDescriptorSkipFn false i cd = false ∧
        (survivorsFrom o false 0 retCds).headD env.nullContentDescriptor =
          applyContentDescriptorMutations o.ContentDescriptorMutationFns false i cd := by
    simpa using headD_survivorsFrom o false 0 retCds env.nullContentDescriptor
  refine ⟨_, argCds, retCds,
    makeEthereumMethod_ok env o name pcb argCds retCds hP hR hargs hrets, hargs, hrets,
    hpar, ?_, ?_, ?_⟩
  · rcases hres with h | ⟨i, cd, hi, hs, h⟩
    · exact Or.inl (by simp only [h])
    · exact Or.inr ⟨i, cd, hi, hs, by simp only [h]⟩
  · intro pre fn post hsplit isArgs i cd
    rw [hsplit]
    simp [applyContentDescriptorMutations, List.foldl_append]
  · intro A B hfns
    constructor
    · intro d hd
      obtain ⟨i, cd, hi, _, he⟩ := (hpar d).mp hd
      refine ⟨i, cd, hi, ?_⟩
      rw [he, hfns]
      rfl
    · rcases hres with h | ⟨i, cd, hi, _, h⟩
      · exact Or.inl (by simp only [h])
      · refine Or.inr ⟨i, cd,
          applyContentDescriptorMutations o.ContentDescriptorMutationFns false i cd, hi,
          by simp only [h], ?_⟩
        rw [hfns]
        rfl

/-- Witness of C5 on `Add`, built with `exOptsMarkers`: the descriptions of
the two surviving parameters and of the result end in `AB`. -/
theorem makeEthereumMethod_mutators_compose_witness :
    exAdd.cb.getArgTypes.length ≤ (argASTFields exEnv exAdd).length ∧
    exAdd.cb.getRetTypes.length ≤ (retASTFields exEnv exAdd).length ∧
    SchemaMutationsPass exEnv exOptsMarkers
      (exAdd.cb.getArgTypes ++ exAdd.cb.getRetTypes) ∧
    (∃ m : Method String, makeEthereumMethod exEnv (some exOptsMarkers) "Add" exAdd = .ok m) ∧
    (Outcome.ok
        { Name := "Add", Summary := "",
          Description := "`func(context.Context, int, int) (int, error)`",
          ExternalDocs := ⟨"line=12", "file://calc.go"⟩,
          Params := [⟨"a", "", "intAB", true, "schema:int"⟩,
            ⟨"b", "", "intAB", true, "schema:int"⟩],
          Result := some ⟨"sum", "", "intAB", true, "schema:int"⟩,
          Deprecated := false } =
      makeEthereumMethod exEnv (some exOptsMarkers) "Add" exAdd) :=
  have hpass : SchemaMutationsPass exEnv exOptsMarkers
      (exAdd.cb.getArgTypes ++ exAdd.cb.getRetTypes) :=
    fun _ _ => ⟨_, rfl⟩
  ⟨by decide, by decide, hpass,
    (makeEthereumMethod_mutators_compose exEnv exOptsMarkers "Add" exAdd (by decide)
      (by decide) hpass).imp (fun _ h => h.elim (fun _ h1 => h1.elim (fun _ h2 => h2.1))),
    rfl⟩

/-- C6: when the declaration of the handler resolves, every runtime position
has a static field and a configured schema mutator fails on the schema of some
parameter or return type, `DefaultServiceCallbackToMethodEthereum` returns no
Method but an error whose message contains the handler name and the text of
the error `e` that a schema mutator returned. -/
theorem DefaultServiceCallbackToMethodEthereum_schema_failure {Ty Schema : Type}
    (env : Env Ty Schema) (o : DocumentProviderParseOpts Schema) (name : String)
    (cb : Callback Ty) (pcb : parsedCallback Ty)
    (hres : env.newParsedCallback cb = .ok pcb)
    (hP : pcb.cb.getArgTypes.length ≤ (argASTFields env pcb).length)
    (hR : pcb.cb.getRetTypes.length ≤ (retASTFields env pcb).length)
    (hfail : ∃ ty ∈ pcb.cb.getArgTypes ++ pcb.cb.getRetTypes, ∃ e,
      applySchemaMutations o.SchemaMutationFns (env.typeToSchema (some o) ty) = .error e) :
    ∃ e err,
      (∃ mutation ∈ o.SchemaMutationFns, ∃ sch, (mutation sch).2 = some e) ∧
      DefaultServiceCallbackToMethodEthereum env (some o) name cb = .error err ∧
      err.msg =
        "make method error method=" ++ name ++ " cb=" ++ env.sdump cb ++ " error=" ++ e.msg ∧
      stringsContains err.msg name = true ∧
      stringsContains err.msg e.msg = true ∧
      ∀ m, DefaultServiceCallbackToMethodEthereum env (some o) name cb ≠ .ok m := by
  obtain ⟨ty, _, e, he, hm⟩ := makeEthereumMethod_error_of_fail env o name pcb hP hR hfail
  have hd : DefaultServiceCallbackToMethodEthereum env (some o) name cb =
      .error ⟨"make method error method=" ++ name ++ " cb=" ++ env.sdump cb
        ++ " error=" ++ e.msg⟩ := by
    unfold DefaultServiceCallbackToMethodEthereum
    simp only [hres, hm]
  refine ⟨e, _, applySchemaMutations_error_mem _ _ e he, hd, rfl, ?_, ?_, ?_⟩
  · have hshape : "make method error method=" ++ name ++ " cb=" ++ env.sdump cb
        ++ " error=" ++ e.msg =
        "make method error method=" ++ name ++ (" cb=" ++ env.sdump cb ++ " error=" ++ e.msg) := by
      simp only [String.append_assoc]
    simp only [hshape]
    exact stringsContains_append_mid _ _ _
  · exact stringsContains_append_right _ _
  · intro m hmeq
    rw [hd] at hmeq
    exact Outcome.noConfusion hmeq

/-- Witness of C6 on `Add`, built with `exOptsFailing`, whose schema mutator
fails on the second return type. -/
theorem DefaultServiceCallbackToMethodEthereum_schema_failure_witness :
    exEnv.newParsedCallback exAdd.cb = .ok exAdd ∧
    exAdd.cb.getArgTypes.length ≤ (argASTFields exEnv exAdd).length ∧
    exAdd.cb.getRetTypes.length ≤ (retASTFields exEnv exAdd).length ∧
    (∃ ty ∈ exAdd.cb.getArgTypes ++ exAdd.cb.getRetTypes, ∃ e,
      applySchemaMutations exOptsFailing.SchemaMutationFns
        (exEnv.typeToSchema (some exOptsFailing) ty) = .error e) ∧
    (∀ m, DefaultServiceCallbackToMethodEthereum exEnv (some exOptsFailing) "Add" exAdd.cb
      ≠ .ok m) ∧
    DefaultServiceCallbackToMethodEthereum exEnv (some exOptsFailing) "Add" exAdd.cb =
      .error ⟨"make method error method=Add cb=func(context.Context, int, int) (int, error)"
        ++ " error=unsupported schema"⟩ :=
  have hfail : ∃ ty ∈ exAdd.cb.getArgTypes ++ exAdd.cb.getRetTypes, ∃ e,
      applySchemaMutations exOptsFailing.SchemaMutationFns
        (exEnv.typeToSchema (some exOptsFailing) ty) = .error e :=
    ⟨"error", by decide, ⟨"unsupported schema"⟩, rfl⟩
  ⟨rfl, by decide, by decide, hfail,
    (DefaultServiceCallbackToMethodEthereum_schema_failure exEnv exOptsFailing "Add" exAdd.cb
      exAdd rfl (by decide) (by decide) hfail).elim
        (fun _ h => h.elim (fun _ h1 => h1.2.2.2.2.2)),
    rfl⟩

/-- C7: when declaration resolution fails with an error whose message contains
"autogenerated", `DefaultServiceCallbackToMethodEthereum` returns no Method and
the error `errParseCallbackAutoGenerate`; when it fails with any other error,
the error returned is that error, and it differs from
`errParseCallbackAutoGenerate` (whose own message is taken to carry the
"autogenerated" classification). -/
theorem DefaultServiceCallbackToMethodEthereum_autogenerated {Ty Schema : Type}
    (env : Env Ty Schema) (opts : Option (DocumentProviderParseOpts Schema)) (name : String)
    (cb : Callback Ty) (e : GoError)
    (hres : env.newParsedCallback cb = .error e)
    (hsentinel : stringsContains env.errParseCallbackAutoGenerate.msg "autogenerated" = true) :
    (stringsContains e.msg "autogenerated" = true →
      DefaultServiceCallbackToMethodEthereum env opts name cb =
        .error env.errParseCallbackAutoGenerate) ∧
    (stringsContains e.msg "autogenerated" = false →
      DefaultServiceCallbackToMethodEthereum env opts name cb = .error e ∧
      e ≠ env.errParseCallbackAutoGenerate) := by
  constructor
  · intro hauto
    unfold DefaultServiceCallbackToMethodEthereum
    simp only [hres, hauto, if_true]
  · intro hother
    constructor
    · unfold DefaultServiceCallbackToMethodEthereum
      simp [hres, hother]
    · intro heq
      rw [heq, hsentinel] at hother
      exact Bool.noConfusion hother

/-- Witness of C7 on the compiler-generated wrapper `func()` and on `Ping`,
whose declaration `exEnv` does not find. -/
theorem DefaultServiceCallbackToMethodEthereum_autogenerated_witness :
    exEnv.newParsedCallback exWrapper =
      .error ⟨"open <autogenerated>: no such file or directory"⟩ ∧
    stringsContains exEnv.errParseCallbackAutoGenerate.msg "autogenerated" = true ∧
    stringsContains "open <autogenerated>: no such file or directory" "autogenerated" = true ∧
    DefaultServiceCallbackToMethodEthereum exEnv none "wrapper" exWrapper =
      .error exEnv.errParseCallbackAutoGenerate ∧
    (DefaultServiceCallbackToMethodEthereum exEnv none "Ping" exPing.cb =
        .error ⟨"open calc.go: no such file or directory"⟩ ∧
      (⟨"open calc.go: no such file or directory"⟩ : GoError) ≠
        exEnv.errParseCallbackAutoGenerate) :=
  ⟨rfl, by decide, by decide,
    (DefaultServiceCallbackToMethodEthereum_autogenerated exEnv none "wrapper" exWrapper
      ⟨"open <autogenerated>: no such file or directory"⟩ rfl (by decide)).1 (by decide),
    (DefaultServiceCallbackToMethodEthereum_autogenerated exEnv none "Ping" exPing.cb
      ⟨"open calc.go: no such file or directory"⟩ rfl (by decide)).2 (by decide)⟩

/-- C8, as the code has it: when declaration resolution fails with an error
that is not classified as auto-generated, `DefaultServiceCallbackToMethodEthereum`
returns no Method and that very error, unchanged; neither the handler name nor
a dump of the callback is added to it. -/
theorem DefaultServiceCallbackToMethodEthereum_resolution_failure {Ty Schema : Type}
    (env : Env Ty Schema) (opts : Option (DocumentProviderParseOpts Schema)) (name : String)
    (cb : Callback Ty) (e : GoError)
    (hres : env.newParsedCallback cb = .error e)
    (hother : stringsContains e.msg "autogenerated" = false) :
    DefaultServiceCallbackToMethodEthereum env opts name cb = .error e := by
  unfold DefaultServiceCallbackToMethodEthereum
  simp [hres, hother]

/-- Witness of the amended C8 on `Ping`, whose declaration `exEnv` does not
find. -/
theorem DefaultServiceCallbackToMethodEthereum_resolution_failure_witness :
    exEnv.newParsedCallback exPing.cb = .error ⟨"open calc.go: no such file or directory"⟩ ∧
    stringsContains "open calc.go: no such file or directory" "autogenerated" = false ∧
    DefaultServiceCallbackToMethodEthereum exEnv none "Ping" exPing.cb =
      .error ⟨"open calc.go: no such file or directory"⟩ :=
  ⟨rfl, by decide,
    DefaultServiceCallbackToMethodEthereum_resolution_failure exEnv none "Ping" exPing.cb
      ⟨"open calc.go: no such file or directory"⟩ rfl (by decide)⟩

/-- C8 fails as stated: resolving `Ping` fails with a message that does not
contain "autogenerated", and the error returned for the handler name `Ping`
contains neither that name nor the dump of the callback. -/
theorem DefaultServiceCallbackToMethodEthereum_resolution_counterexample :
    exEnv.newParsedCallback exPing.cb = .error ⟨"open calc.go: no such file or directory"⟩ ∧
    stringsContains "open calc.go: no such file or directory" "autogenerated" = false ∧
    ∃ err, DefaultServiceCallbackToMethodEthereum exEnv (some exEnv.DefaultParseOptions)
        "Ping" exPing.cb = .error err ∧
      stringsContains err.msg "Ping" = false ∧
      stringsContains err.msg (exEnv.sdump exPing.cb) = false :=
  ⟨rfl, by decide, ⟨"open calc.go: no such file or directory"⟩, rfl, by decide, by decide⟩

/-- C9: the skip predicate installed by `DefaultEthereumParseOptions` returns
true exactly when `isArgs` is true, `index` is 0 and the descriptor's
`Description` contains "context"; for a handler with three parameters and two
return values whose first parameter type is described with "context", building
with these options yields `Params` = the descriptors of parameters 1 and 2 (with
the static names of those positions) and `Result` = the descriptor of return
position 0, the second return value not being emitted. -/
theorem DefaultEthereumParseOptions_skips_context {Ty Schema : Type} (env : Env Ty Schema)
    (name : String) (pcb : parsedCallback Ty) (t0 t1 t2 r0 r1 : Ty)
    (f0 f1 f2 g0 g1 : NamedField)
    (hat : pcb.cb.getArgTypes = [t0, t1, t2]) (hrt : pcb.cb.getRetTypes = [r0, r1])
    (haf : argASTFields env pcb = [f0, f1, f2]) (hrf : retASTFields env pcb = [g0, g1])
    (hctx : stringsContains (env.fullTypeDescription t0) "context" = true)
    (hpass : SchemaMutationsPass env (DefaultEthereumParseOptions env) [t0, t1, t2, r0, r1]) :
    (∃ fn, (DefaultEthereumParseOptions env).ContentDescriptorSkipFn = some fn ∧
      ∀ (isArgs : Bool) (index : Nat) (cd : ContentDescriptor Schema),
        fn isArgs index cd = true ↔
          (isArgs = true ∧ index = 0 ∧ stringsContains cd.Description "context" = true)) ∧
    ∃ m cdA cdB cdR,
      contentDescriptor env (some (DefaultEthereumParseOptions env)) t1 f1 = .ok cdA ∧
      contentDescriptor env (some (DefaultEthereumParseOptions env)) t2 f2 = .ok cdB ∧
      contentDescriptor env (some (DefaultEthereumParseOptions env)) r0 g0 = .ok cdR ∧
      cdA.Name = f1.Name ∧ cdB.Name = f2.Name ∧ cdR.Name = g0.Name ∧
      makeEthereumMethod env (some (DefaultEthereumParseOptions env)) name pcb = .ok m ∧
      m.Params =
        [applyContentDescriptorMutations
            (DefaultEthereumParseOptions env).ContentDescriptorMutationFns true 1 cdA,
          applyContentDescriptorMutations
            (DefaultEthereumParseOptions env).ContentDescriptorMutationFns true 2 cdB] ∧
      m.Result =
        some (applyContentDescriptorMutations
          (DefaultEthereumParseOptions env).ContentDescriptorMutationFns false 0 cdR) := by
  constructor
  · refine ⟨ethereumSkipFn, rfl, ?_⟩
    intro isArgs index cd
    simp [ethereumSkipFn, and_assoc]
  · obtain ⟨s0, hs0⟩ := hpass t0 (by simp)
    obtain ⟨s1, hs1⟩ := hpass t1 (by simp)
    obtain ⟨s2, hs2⟩ := hpass t2 (by simp)
    obtain ⟨u0, hu0⟩ := hpass r0 (by simp)
    obtain ⟨u1, hu1⟩ := hpass r1 (by simp)
    obtain ⟨c0, h0⟩ : ∃ c, contentDescriptor env (some (DefaultEthereumParseOptions env))
        t0 f0 = .ok c := ⟨_, contentDescriptor_ok_of_pass env _ t0 f0 s0 hs0⟩
    obtain ⟨c1, h1⟩ : ∃ c, contentDescriptor env (some (DefaultEthereumParseOptions env))
        t1 f1 = .ok c := ⟨_, contentDescriptor_ok_of_pass env _ t1 f1 s1 hs1⟩
    obtain ⟨c2, h2⟩ : ∃ c, contentDescriptor env (some (DefaultEthereumParseOptions env))
        t2 f2 = .ok c := ⟨_, contentDescriptor_ok_of_pass env _ t2 f2 s2 hs2⟩
    obtain ⟨d0, k0⟩ : ∃ c, contentDescriptor env (some (DefaultEthereumParseOptions env))
        r0 g0 = .ok c := ⟨_, contentDescriptor_ok_of_pass env _ r0 g0 u0 hu0⟩
    obtain ⟨d1, k1⟩ : ∃ c, contentDescriptor env (some (DefaultEthereumParseOptions env))
        r1 g1 = .ok c := ⟨_, contentDescriptor_ok_of_pass env _ r1 g1 u1 hu1⟩
    have hargs : Built env (some (DefaultEthereumParseOptions env)) pcb.cb.getArgTypes
        (argASTFields env pcb) [c0, c1, c2] := by
      rw [hat, haf]
      exact List.Forall₂.cons h0 (List.Forall₂.cons h1 (List.Forall₂.cons h2 List.Forall₂.nil))
    have hrets : Built env (some (DefaultEthereumParseOptions env)) pcb.cb.getRetTypes
        (retASTFields env pcb) [d0, d1] := by
      rw [hrt, hrf]
      exact List.Forall₂.cons k0 (List.Forall₂.cons k1 List.Forall₂.nil)
    have hm := makeEthereumMethod_ok env (DefaultEthereumParseOptions env) name pcb _ _
      (by simp [hat, haf]) (by simp [hrt, hrf]) hargs hrets
    have hd0 := (contentDescriptor_ok_fields env _ t0 f0 c0 h0).2.2.1
    refine ⟨_, c1, c2, d0, h1, h2, k0,
      (contentDescriptor_ok_fields env _ t1 f1 c1 h1).1,
      (contentDescriptor_ok_fields env _ t2 f2 c2 h2).1,
      (contentDescriptor_ok_fields env _ r0 g0 d0 k0).1, hm, ?_, ?_⟩
    · simp [survivorsFrom, List.enumFrom_cons, List.filter_cons, skipped,
        DefaultEthereumParseOptions, ethereumSkipFn, hctx, hd0]
    · simp [survivorsFrom, List.enumFrom_cons, List.filter_cons, skipped,
        DefaultEthereumParseOptions, ethereumSkipFn]

/-- Witness of C9 on `Add`, built with the Ethereum options of `exEnv`. -/
theorem DefaultEthereumParseOptions_skips_context_witness :
    stringsContains (exEnv.fullTypeDescription "context.Context") "context" = true ∧
    SchemaMutationsPass exEnv (DefaultEthereumParseOptions exEnv)
      ["context.Context", "int", "int", "int", "error"] ∧
    (∃ m : Method String,
      makeEthereumMethod exEnv (some (DefaultEthereumParseOptions exEnv)) "Add" exAdd = .ok m) ∧
    (Outcome.ok
        { Name := "Add", Summary := "",
          Description := "`func(context.Context, int, int) (int, error)`",
          ExternalDocs := ⟨"line=12", "file://calc.go"⟩,
          Params := [⟨"a", "", "int", true, "schema:int"⟩,
            ⟨"b", "", "int", true, "schema:int"⟩],
          Result := some ⟨"sum", "", "int", true, "schema:int"⟩,
          Deprecated := false } =
      makeEthereumMethod exEnv (some (DefaultEthereumParseOptions exEnv)) "Add" exAdd) :=
  have hpass : SchemaMutationsPass exEnv (DefaultEthereumParseOptions exEnv)
      ["context.Context", "int", "int", "int", "error"] :=
    fun _ _ => ⟨_, rfl⟩
  ⟨by decide, hpass,
    (DefaultEthereumParseOptions_skips_context exEnv "Add" exAdd "context.Context" "int" "int"
      "int" "error" ⟨"ctx", ⟨["ctx"], none⟩⟩ ⟨"a", ⟨["a", "b"], none⟩⟩
      ⟨"b", ⟨["a", "b"], none⟩⟩ ⟨"sum", ⟨["sum"], none⟩⟩ ⟨"err", ⟨["err"], none⟩⟩
      rfl rfl rfl rfl (by decide) hpass).2.elim
        (fun m h => h.elim (fun _ h1 => h1.elim (fun _ h2 => h2.elim
          (fun _ h3 => ⟨m, h3.2.2.2.2.2.2.1⟩)))),
    rfl⟩

/-- C10: for a handler that builds, `Result` is the first entry of the
processed return-descriptor list: the mutated descriptor of the lowest return
position the skip predicate, called with `isArgs = false`, does not skip, and
the null placeholder when the handler has no return type or every return
position is skipped; every other field of the Method is fixed by the name, the
declaration and the parameter descriptors, so no later return descriptor is
carried by the Method. -/
theorem makeEthereumMethod_result_first {Ty Schema : Type} (env : Env Ty Schema)
    (o : DocumentProviderParseOpts Schema) (name : String) (pcb : parsedCallback Ty)
    (hP : pcb.cb.getArgTypes.length ≤ (argASTFields env pcb).length)
    (hR : pcb.cb.getRetTypes.length ≤ (retASTFields env pcb).length)
    (hpass : SchemaMutationsPass env o (pcb.cb.getArgTypes ++ pcb.cb.getRetTypes)) :
    ∃ m argCds retCds, makeEthereumMethod env (some o) name pcb = .ok m ∧
      Built env (some o) pcb.cb.getArgTypes (argASTFields env pcb) argCds ∧
      Built env (some o) pcb.cb.getRetTypes (retASTFields env pcb) retCds ∧
      retCds.length = pcb.cb.getRetTypes.length ∧
      m.Result = some ((survivorsFrom o false 0 retCds).headD env.nullContentDescriptor) ∧
      (∀ k cd, retCds[k]? = some cd →
        skipped o.ContentDescriptorSkipFn false k cd = false →
        (∀ j cd1, j < k → retCds[j]? = some cd1 →
          skipped o.ContentDescriptorSkipFn false j cd1 = true) →
        m.Result =
          some (applyContentDescriptorMutations o.ContentDescriptorMutationFns false k cd)) ∧
      ((∀ k cd, retCds[k]? = some cd →
          skipped o.ContentDescriptorSkipFn false k cd = true) →
        m.Result = some env.nullContentDescriptor) ∧
      (pcb.cb.getRetTypes = [] → m.Result = some env.nullContentDescriptor) ∧
      m = { Name := name
            Summary := env.methodSummary pcb.fdecl
            Description := description pcb
            ExternalDocs :=
              { Description := "line=" ++ toString pcb.runtimeF.line
                URL := "file://" ++ pcb.runtimeF.file }
            Params := survivorsFrom o true 0 argCds
            Result := m.Result
            Deprecated := env.methodDeprecated pcb.fdecl } := by
  obtain ⟨argCds, hargs⟩ := built_of_pass env o pcb.cb.getArgTypes (argASTFields env pcb)
    (pass_append_left env o _ _ hpass)
  obtain ⟨retCds, hrets⟩ := built_of_pass env o pcb.cb.getRetTypes (retASTFields env pcb)
    (pass_append_right env o _ _ hpass)
  have hlen := built_length env (some o) _ _ _ hrets hR
  have hnil : (∀ k cd, retCds[k]? = some cd →
      skipped o.ContentDescriptorSkipFn false k cd = true) →
      (survivorsFrom o false 0 retCds).headD env.nullContentDescriptor =
        env.nullContentDescriptor := by
    intro hall
    rw [survivorsFrom_eq_nil o false 0 retCds (by simpa using hall)]
    rfl
  refine ⟨_, argCds, retCds,
    makeEthereumMethod_ok env o name pcb argCds retCds hP hR hargs hrets, hargs, hrets,
    hlen, rfl, ?_, ?_, ?_, rfl⟩
  · intro k cd hk hs hbefore
    have := headD_survivorsFrom_first o false 0 retCds env.nullContentDescriptor k cd hk
      (by simpa using hs) (by simpa using hbefore)
    simp only [this, Nat.zero_add]
  · intro hall
    simp only [hnil hall]
  · intro hR0
    rw [hR0] at hlen
    have hempty : retCds = [] := List.length_eq_zero.mp (by simpa using hlen)
    subst hempty
    rfl

/-- Witness of C10 on `Add`, built with `exOptsSkipFirst`: the result is the
descriptor of return position 0 and the `error` return is not emitted. -/
theorem makeEthereumMethod_result_first_witness :
    exAdd.cb.getArgTypes.length ≤ (argASTFields exEnv exAdd).length ∧
    exAdd.cb.getRetTypes.length ≤ (retASTFields exEnv exAdd).length ∧
    SchemaMutationsPass exEnv exOptsSkipFirst
      (exAdd.cb.getArgTypes ++ exAdd.cb.getRetTypes) ∧
    (∃ m : Method String,
      makeEthereumMethod exEnv (some exOptsSkipFirst) "Add" exAdd = .ok m) ∧
    (Outcome.ok
        { Name := "Add", Summary := "",
          Description := "`func(context.Context, int, int) (int, error)`",
          ExternalDocs := ⟨"line=12", "file://calc.go"⟩,
          Params := [⟨"a", "doc", "int", true, "schema:int"⟩,
            ⟨"b", "doc", "int", true, "schema:int"⟩],
          Result := some ⟨"sum", "doc", "int", true, "schema:int"⟩,
          Deprecated := false } =
      makeEthereumMethod exEnv (some exOptsSkipFirst) "Add" exAdd) :=
  have hpass : SchemaMutationsPass exEnv exOptsSkipFirst
      (exAdd.cb.getArgTypes ++ exAdd.cb.getRetTypes) :=
    fun _ _ => ⟨_, rfl⟩
  ⟨by decide, by decide, hpass,
    (makeEthereumMethod_result_first exEnv exOptsSkipFirst "Add" exAdd (by decide)
      (by decide) hpass).imp (fun _ h => h.elim (fun _ h1 => h1.elim (fun _ h2 => h2.1))),
    rfl⟩

/-! ## Further facts used by the claims below -/

/-- A schema-mutator chain that succeeds returns the schema obtained by
running every mutator, in list order, on the output of the previous one. -/
theorem applySchemaMutations_ok_foldl {Schema : Type}
    (fns : List (Schema → Schema × Option GoError)) (sch sch1 : Schema)
    (h : applySchemaMutations fns sch = .ok sch1) :
    sch1 = fns.foldl (fun s mutation => (mutation s).1) sch := by
  induction fns generalizing sch with
  | nil =>
    simp only [applySchemaMutations, Outcome.ok.injEq] at h
    simp [h]
  | cons mutation rest ih =>
    unfold applySchemaMutations at h
    rcases hm : mutation sch with ⟨sch2, _ | err⟩
    · rw [hm] at h
      simp only at h
      have := ih sch2 h
      simp [List.foldl_cons, hm, this]
    · rw [hm] at h
      simp at h

/-- The fields a returned Method gets from the name and the declaration. -/
theorem makeEthereumMethod_ok_fields {Ty Schema : Type} (env : Env Ty Schema)
    (opts : Option (DocumentProviderParseOpts Schema)) (name : String)
    (pcb : parsedCallback Ty) (m : Method Schema)
    (h : makeEthereumMethod env opts name pcb = .ok m) :
    m.Name = name ∧ m.Summary = env.methodSummary pcb.fdecl ∧
      m.Description = "`" ++ pcb.cb.funcTypeString ++ "`" ∧
      m.ExternalDocs.URL = "file://" ++ pcb.runtimeF.file ∧
      m.ExternalDocs.Description = "line=" ++ toString pcb.runtimeF.line ∧
      m.Deprecated = env.methodDeprecated pcb.fdecl := by
  unfold makeEthereumMethod at h
  cases opts with
  | none => simp at h
  | some o =>
    simp only at h
    cases hp : params env (some o) pcb o.ContentDescriptorSkipFn with
    | error e => rw [hp] at h; simp at h
    | panic q => rw [hp] at h; simp at h
    | ok ps =>
      rw [hp] at h
      simp only at h
      cases hr : rets env (some o) pcb o.ContentDescriptorSkipFn with
      | error e => rw [hr] at h; simp at h
      | panic q => rw [hr] at h; simp at h
      | ok rs =>
        rw [hr] at h
        simp only at h
        cases h0 : rs[0]? with
        | none => rw [h0] at h; simp at h
        | some res =>
          rw [h0] at h
          simp only [Outcome.ok.injEq] at h
          subst h
          exact ⟨rfl, rfl, rfl, rfl, rfl, rfl⟩

/-- C11: for every runtime type `ty` and static field `f`, when the schema
mutators pass on `ty` the `contentDescriptor` closure returns the descriptor
with `Name` = the static name of `f`, `Summary` = the text of the comment of
`f`, `Description` = `fullTypeDescription ty`, `Required` = true and `Schema` =
`typeToSchema ty` run through the configured schema mutators in order, which is
`typeToSchema ty` itself when none is configured or the options are nil. -/
theorem contentDescriptor_fields {Ty Schema : Type} (env : Env Ty Schema)
    (o : DocumentProviderParseOpts Schema) (ty : Ty) (f : NamedField)
    (hpass : ∃ sch,
      applySchemaMutations o.SchemaMutationFns (env.typeToSchema (some o) ty) = .ok sch) :
    contentDescriptor env (some o) ty f =
      .ok { Name := f.Name
            Summary := CommentGroup.Text f.Field.Comment
            Description := env.fullTypeDescription ty
            Required := true
            Schema := o.SchemaMutationFns.foldl (fun s mutation => (mutation s).1)
              (env.typeToSchema (some o) ty) } ∧
    (o.SchemaMutationFns = [] →
      contentDescriptor env (some o) ty f =
        .ok { Name := f.Name
              Summary := CommentGroup.Text f.Field.Comment
              Description := env.fullTypeDescription ty
              Required := true
              Schema := env.typeToSchema (some o) ty }) ∧
    contentDescriptor env none ty f =
      .ok { Name := f.Name
            Summary := CommentGroup.Text f.Field.Comment
            Description := env.fullTypeDescription ty
            Required := true
            Schema := env.typeToSchema none ty } := by
  obtain ⟨sch, hsch⟩ := hpass
  have hfold := applySchemaMutations_ok_foldl _ _ _ hsch
  refine ⟨?_, ?_, rfl⟩
  · rw [contentDescriptor_ok_of_pass env o ty f sch hsch, hfold]
  · intro hnil
    rw [contentDescriptor_ok_of_pass env o ty f sch hsch, hfold, hnil]
    rfl

/-- Witness of C11 on the type `int` and the field `a` of `Add`, built with
`exOptsNoSkip`, whose schema mutator appends `!`. -/
theorem contentDescriptor_fields_witness :
    (∃ sch, applySchemaMutations exOptsNoSkip.SchemaMutationFns
      (exEnv.typeToSchema (some exOptsNoSkip) "int") = .ok sch) ∧
    contentDescriptor exEnv (some exOptsNoSkip) "int" ⟨"a", ⟨["a", "b"], some ⟨"first"⟩⟩⟩ =
      .ok ⟨"a", "first", "int", true, "schema:int!"⟩ :=
  ⟨⟨_, rfl⟩,
    (contentDescriptor_fields exEnv exOptsNoSkip "int" ⟨"a", ⟨["a", "b"], some ⟨"first"⟩⟩⟩
      ⟨_, rfl⟩).1⟩

/-- C13: every Method `makeEthereumMethod` returns has `Name` = the supplied
handler name, `Summary` = `methodSummary` of the declaration, `Description` =
the handler's type signature string between backticks, `ExternalDocs.URL` =
"file://" followed by the source file, `ExternalDocs.Description` = "line="
followed by the decimal source line, and `Deprecated` = `methodDeprecated` of
the declaration; and such a Method is returned whenever the options are not
nil, every runtime position has a static field and the schema mutators pass. -/
theorem makeEthereumMethod_metadata {Ty Schema : Type} (env : Env Ty Schema)
    (opts : Option (DocumentProviderParseOpts Schema)) (name : String)
    (pcb : parsedCallback Ty) :
    (∀ m, makeEthereumMethod env opts name pcb = .ok m →
      m.Name = name ∧ m.Summary = env.methodSummary pcb.fdecl ∧
      m.Description = "`" ++ pcb.cb.funcTypeString ++ "`" ∧
      m.ExternalDocs.URL = "file://" ++ pcb.runtimeF.file ∧
      m.ExternalDocs.Description = "line=" ++ toString pcb.runtimeF.line ∧
      m.Deprecated = env.methodDeprecated pcb.fdecl) ∧
    (∀ o, opts = some o →
      pcb.cb.getArgTypes.length ≤ (argASTFields env pcb).length →
      pcb.cb.getRetTypes.length ≤ (retASTFields env pcb).length →
      SchemaMutationsPass env o (pcb.cb.getArgTypes ++ pcb.cb.getRetTypes) →
      ∃ m, makeEthereumMethod env opts name pcb = .ok m ∧
        m.Name = name ∧ m.Summary = env.methodSummary pcb.fdecl ∧
        m.Description = "`" ++ pcb.cb.funcTypeString ++ "`" ∧
        m.ExternalDocs.URL = "file://" ++ pcb.runtimeF.file ∧
        m.ExternalDocs.Description = "line=" ++ toString pcb.runtimeF.line ∧
        m.Deprecated = env.methodDeprecated pcb.fdecl) := by
  refine ⟨makeEthereumMethod_ok_fields env opts name pcb, ?_⟩
  intro o ho hP hR hpass
  subst ho
  obtain ⟨argCds, hargs⟩ := built_of_pass env o pcb.cb.getArgTypes (argASTFields env pcb)
    (pass_append_left env o _ _ hpass)
  obtain ⟨retCds, hrets⟩ := built_of_pass env o pcb.cb.getRetTypes (retASTFields env pcb)
    (pass_append_right env o _ _ hpass)
  have hm := makeEthereumMethod_ok env o name pcb argCds retCds hP hR hargs hrets
  exact ⟨_, hm, makeEthereumMethod_ok_fields env (some o) name pcb _ hm⟩

/-- Witness of C13 on `Add`, declared at line 12 of `calc.go`. -/
theorem makeEthereumMethod_metadata_witness :
    ∃ m, makeEthereumMethod exEnv (some exOptsNoSkip) "Add" exAdd = .ok m ∧
      m.Name = "Add" ∧ m.Summary = "" ∧
      m.Description = "`func(context.Context, int, int) (int, error)`" ∧
      m.ExternalDocs.URL = "file://calc.go" ∧
      m.ExternalDocs.Description = "line=12" ∧
      m.Deprecated = false :=
  (makeEthereumMethod_metadata exEnv (some exOptsNoSkip) "Add" exAdd).2 exOptsNoSkip rfl
    (by decide) (by decide) (fun _ _ => ⟨_, rfl⟩)

/-- C18: with nil options `makeEthereumMethod` returns no Method for any
handler, also one without parameters and return values: although the
`contentDescriptor` closure guards its use of the options and builds a
descriptor, the build aborts on the dereference of the nil options at
`opts.ContentDescriptorSkipFn`; and the loop, entered with nil options, aborts
the same way at `opts.ContentDescriptorMutationFns` on the first position that
is not skipped. -/
theorem makeEthereumMethod_nil_options {Ty Schema : Type} (env : Env Ty Schema)
    (name : String) (pcb : parsedCallback Ty) :
    makeEthereumMethod env none name pcb = .panic .nilDereference ∧
    (∀ m, makeEthereumMethod env none name pcb ≠ .ok m) ∧
    (∀ ty f, ∃ cd, contentDescriptor env none ty f = .ok cd) ∧
    (∀ (isArgs : Bool) (astFields : List NamedField) (i : Nat) (a : Ty) (rest : List Ty)
        (out : List (ContentDescriptor Schema)),
      i < astFields.length →
      descriptorLoop env none isArgs astFields none i (a :: rest) out =
        .panic .nilDereference) := by
  refine ⟨rfl, ?_, fun ty f => ⟨_, rfl⟩, ?_⟩
  · intro m hm
    exact Outcome.noConfusion hm
  · intro isArgs astFields i a rest out hi
    obtain ⟨f, hf, _⟩ := drop_eq_cons_of_lt astFields i hi
    unfold descriptorLoop
    simp only [hf]
    rfl

/-- Witness of C18 on `Noop`, which has no parameter and no return value. -/
theorem makeEthereumMethod_nil_options_witness :
    exNoop.cb.getArgTypes = [] ∧ exNoop.cb.getRetTypes = [] ∧
    makeEthereumMethod exEnv none "Noop" exNoop = .panic .nilDereference :=
  ⟨rfl, rfl, (makeEthereumMethod_nil_options exEnv "Noop" exNoop).1⟩

/-! ## Facts about the recorded hook calls -/

theorem applySchemaMutationsLogged_fst {Schema : Type}
    (fns : List (Schema → Schema × Option GoError)) (k : Nat) (sch : Schema) :
    (applySchemaMutationsLogged k fns sch).1 = applySchemaMutations fns sch := by
  induction fns generalizing k sch with
  | nil => rfl
  | cons mutation rest ih =>
    unfold applySchemaMutationsLogged applySchemaMutations
    rcases hm : mutation sch with ⟨sch1, _ | err⟩
    · simpa using ih (k + 1) sch1
    · rfl

theorem applySchemaMutationsLogged_snd {Schema : Type}
    (fns : List (Schema → Schema × Option GoError)) (k : Nat) (sch sch1 : Schema)
    (h : applySchemaMutations fns sch = .ok sch1) :
    (applySchemaMutationsLogged k fns sch).2 =
      (List.range fns.length).map
        (fun j => .schemaMutation (k + j)
          ((fns.take j).foldl (fun s mutation => (mutation s).1) sch)) := by
  induction fns generalizing k sch with
  | nil => rfl
  | cons mutation rest ih =>
    unfold applySchemaMutations at h
    unfold applySchemaMutationsLogged
    rcases hm : mutation sch with ⟨sch2, _ | err⟩
    · rw [hm] at h
      simp only at h
      simp only [List.length_cons, List.range_succ_eq_map, List.map_cons, List.map_map,
        ih (k + 1) sch2 h]
      refine congrArg₂ _ rfl ?_
      apply List.map_congr_left
      intro j _
      simp only [Function.comp, Nat.succ_eq_add_one, List.take_succ_cons, List.foldl_cons, hm]
      congr 1
      omega
    · rw [hm] at h
      simp at h

theorem contentDescriptorLogged_fst {Ty Schema : Type} (env : Env Ty Schema)
    (opts : Option (DocumentProviderParseOpts Schema)) (ty : Ty) (f : NamedField) :
    (contentDescriptorLogged env opts ty f).1 = contentDescriptor env opts ty f := by
  unfold contentDescriptorLogged contentDescriptor
  cases opts with
  | none => rfl
  | some o =>
    by_cases hlen : o.SchemaMutationFns.length > 0
    · simp only [hlen, if_true]
      rw [← applySchemaMutationsLogged_fst o.SchemaMutationFns 0]
      cases (applySchemaMutationsLogged 0 o.SchemaMutationFns
        (env.typeToSchema (some o) ty)).1 <;> rfl
    · simp only [hlen, if_false]

theorem contentDescriptorLogged_snd {Ty Schema : Type} (env : Env Ty Schema)
    (o : DocumentProviderParseOpts Schema) (ty : Ty) (f : NamedField) (sch1 : Schema)
    (h : applySchemaMutations o.SchemaMutationFns (env.typeToSchema (some o) ty) = .ok sch1) :
    (contentDescriptorLogged env (some o) ty f).2 =
      schemaCalls o.SchemaMutationFns (env.typeToSchema (some o) ty) := by
  have hlog := applySchemaMutationsLogged_snd o.SchemaMutationFns 0 _ _ h
  have hfst := applySchemaMutationsLogged_fst o.SchemaMutationFns 0
    (env.typeToSchema (some o) ty)
  rw [h] at hfst
  unfold contentDescriptorLogged schemaCalls
  by_cases hlen : o.SchemaMutationFns.length > 0
  · simp only [hlen, if_true, hfst, hlog, Nat.zero_add]
  · have hnil : o.SchemaMutationFns = [] := by
      cases hfn : o.SchemaMutationFns with
      | nil => rfl
      | cons a l => rw [hfn] at hlen; simp at hlen
    simp [hnil]

theorem contentDescriptor_ok_pass {Ty Schema : Type} (env : Env Ty Schema)
    (o : DocumentProviderParseOpts Schema) (ty : Ty) (f : NamedField)
    (cd : ContentDescriptor Schema) (h : contentDescriptor env (some o) ty f = .ok cd) :
    applySchemaMutations o.SchemaMutationFns (env.typeToSchema (some o) ty) =
      .ok cd.Schema := by
  rw [contentDescriptor_some] at h
  cases hc : applySchemaMutations o.SchemaMutationFns (env.typeToSchema (some o) ty) with
  | ok sch =>
    rw [hc] at h
    simp only [Outcome.ok.injEq] at h
    rw [← h]
  | error e => rw [hc] at h; simp at h
  | panic q => rw [hc] at h; simp at h

theorem applyContentDescriptorMutationsLogged_fst {Schema : Type}
    (fns : List (Bool → Nat → ContentDescriptor Schema → ContentDescriptor Schema))
    (k : Nat) (isArgs : Bool) (i : Nat) (cd : ContentDescriptor Schema) :
    (applyContentDescriptorMutationsLogged k fns isArgs i cd).1 =
      applyContentDescriptorMutations fns isArgs i cd := by
  induction fns generalizing k cd with
  | nil => rfl
  | cons fn rest ih =>
    unfold applyContentDescriptorMutationsLogged
    simp only [ih]
    rfl

theorem applyContentDescriptorMutationsLogged_snd {Schema : Type}
    (fns : List (Bool → Nat → ContentDescriptor Schema → ContentDescriptor Schema))
    (k : Nat) (isArgs : Bool) (i : Nat) (cd : ContentDescriptor Schema) :
    (applyContentDescriptorMutationsLogged k fns isArgs i cd).2 =
      (List.range fns.length).map
        (fun j => .mutation (k + j) isArgs i
          (applyContentDescriptorMutations (fns.take j) isArgs i cd)) := by
  induction fns generalizing k cd with
  | nil => rfl
  | cons fn rest ih =>
    unfold applyContentDescriptorMutationsLogged
    simp only [List.length_cons, List.range_succ_eq_map, List.map_cons, List.map_map, ih]
    refine congrArg₂ _ rfl ?_
    apply List.map_congr_left
    intro j _
    simp only [Function.comp, Nat.succ_eq_add_one, List.take_succ_cons,
      applyContentDescriptorMutations, List.foldl_cons]
    congr 1
    omega

theorem skippedLogged_fst {Schema : Type}
    (skipFn : Option (Bool → Nat → ContentDescriptor Schema → Bool))
    (isArgs : Bool) (i : Nat) (cd : ContentDescriptor Schema) :
    (skippedLogged skipFn isArgs i cd).1 = skipped skipFn isArgs i cd := by
  cases skipFn <;> rfl

theorem skippedLogged_snd {Schema : Type}
    (skipFn : Option (Bool → Nat → ContentDescriptor Schema → Bool))
    (isArgs : Bool) (i : Nat) (cd : ContentDescriptor Schema) :
    (skippedLogged skipFn isArgs i cd).2 = skipCalls skipFn isArgs i cd := by
  cases skipFn <;> rfl

/-- Dropping the record of the calls gives back the loop. -/
theorem descriptorLoopLogged_fst {Ty Schema : Type} (env : Env Ty Schema)
    (opts : Option (DocumentProviderParseOpts Schema)) (isArgs : Bool)
    (astFields : List NamedField)
    (skipFn : Option (Bool → Nat → ContentDescriptor Schema → Bool))
    (tys : List Ty) (i : Nat) (out : List (ContentDescriptor Schema)) :
    (descriptorLoopLogged env opts isArgs astFields skipFn i tys out).1 =
      descriptorLoop env opts isArgs astFields skipFn i tys out := by
  induction tys generalizing i out with
  | nil => rfl
  | cons a rest ih =>
    unfold descriptorLoopLogged descriptorLoop
    cases hf : astFields[i]? with
    | none => rfl
    | some f =>
      simp only [contentDescriptorLogged_fst]
      cases hc : contentDescriptor env opts a f with
      | error e => rfl
      | panic q => rfl
      | ok cd =>
        simp only [skippedLogged_fst]
        by_cases hs : skipped skipFn isArgs i cd = true
        · simp only [hs, if_true, ih]
        · simp only [hs]
          cases opts with
          | none => rfl
          | some o =>
            simp only [ih, applyContentDescriptorMutationsLogged_fst]
            rfl

/-- Dropping the record of the calls gives back `makeEthereumMethod`. -/
theorem makeEthereumMethodLogged_fst {Ty Schema : Type} (env : Env Ty Schema)
    (opts : Option (DocumentProviderParseOpts Schema)) (name : String)
    (pcb : parsedCallback Ty) :
    (makeEthereumMethodLogged env opts name pcb).1 = makeEthereumMethod env opts name pcb := by
  unfold makeEthereumMethodLogged makeEthereumMethod
  cases opts with
  | none => rfl
  | some o =>
    simp only [paramsLogged, params, descriptorLoopLogged_fst]
    cases descriptorLoop env (some o) true (argASTFields env pcb) o.ContentDescriptorSkipFn 0
        pcb.cb.getArgTypes [] with
    | error e => rfl
    | panic q => rfl
    | ok ps =>
      simp only [retsLogged, rets, descriptorLoopLogged_fst]
      cases descriptorLoop env (some o) false (retASTFields env pcb)
          o.ContentDescriptorSkipFn 0 pcb.cb.getRetTypes [] with
      | error e => rfl
      | panic q => rfl
      | ok rs =>
        by_cases hlen : rs.length = 0
        · simp only [hlen, if_true]
          cases (rs ++ [env.nullContentDescriptor])[0]? <;> rfl
        · simp only [hlen, if_false]
          cases rs[0]? <;> rfl

theorem callsFrom_cons {Ty Schema : Type} (env : Env Ty Schema)
    (o : DocumentProviderParseOpts Schema) (isArgs : Bool) (i : Nat) (ty : Ty)
    (tys : List Ty) (cd : ContentDescriptor Schema) (cds : List (ContentDescriptor Schema)) :
    callsFrom env o isArgs i (ty :: tys) (cd :: cds) =
      positionCalls env o isArgs i ty cd ++ callsFrom env o isArgs (i + 1) tys cds := by
  simp [callsFrom, List.enumFrom_cons]

/-- With the descriptors of all remaining positions built, the loop makes the
calls of these positions, one position after the other. -/
theorem descriptorLoopLogged_snd {Ty Schema : Type} (env : Env Ty Schema)
    (o : DocumentProviderParseOpts Schema) (isArgs : Bool) (astFields : List NamedField)
    (tys : List Ty) (i : Nat) (out cds : List (ContentDescriptor Schema))
    (hb : Built env (some o) tys (astFields.drop i) cds)
    (hlen : tys.length ≤ astFields.length - i) :
    (descriptorLoopLogged env (some o) isArgs astFields o.ContentDescriptorSkipFn i tys
      out).2 = callsFrom env o isArgs i tys cds := by
  induction tys generalizing i out cds with
  | nil =>
    unfold Built at hb
    simp only [List.zip_nil_left, List.forall₂_nil_left_iff] at hb
    subst hb
    simp [descriptorLoopLogged, callsFrom]
  | cons a rest ih =>
    simp only [List.length_cons] at hlen
    have hi : i < astFields.length := by omega
    obtain ⟨f, hf, hdrop⟩ := drop_eq_cons_of_lt astFields i hi
    unfold Built at hb
    rw [hdrop, List.zip_cons_cons] at hb
    cases hb with
    | cons hhead htail =>
      rename_i cd cds1
      simp only at hhead
      have hrec := fun out1 => ih (i + 1) out1 cds1 htail (by omega)
      have hfst : (contentDescriptorLogged env (some o) a f).1 = .ok cd := by
        rw [contentDescriptorLogged_fst, hhead]
      have hsnd := contentDescriptorLogged_snd env o a f cd.Schema
        (contentDescriptor_ok_pass env o a f cd hhead)
      rw [callsFrom_cons]
      unfold descriptorLoopLogged
      simp only [hf, hfst, hsnd, skippedLogged_fst, skippedLogged_snd]
      by_cases hs : skipped o.ContentDescriptorSkipFn isArgs i cd = true
      · simp only [hs, if_true, hrec, positionCalls]
        simp
      · have hs1 : skipped o.ContentDescriptorSkipFn isArgs i cd = false := by
          simpa using hs
        simp only [hs1, Bool.false_eq_true, if_false, hrec, positionCalls,
          applyContentDescriptorMutationsLogged_snd, mutationCalls, Nat.zero_add]

/-- The outcome and the hook calls of `makeEthereumMethod` when the options are
not nil, every runtime position has a static field and every descriptor is
built: the calls of the parameter positions, then those of the return
positions. -/
theorem makeEthereumMethodLogged_ok {Ty Schema : Type} (env : Env Ty Schema)
    (o : DocumentProviderParseOpts Schema) (name : String) (pcb : parsedCallback Ty)
    (argCds retCds : List (ContentDescriptor Schema))
    (hP : pcb.cb.getArgTypes.length ≤ (argASTFields env pcb).length)
    (hR : pcb.cb.getRetTypes.length ≤ (retASTFields env pcb).length)
    (hargs : Built env (some o) pcb.cb.getArgTypes (argASTFields env pcb) argCds)
    (hrets : Built env (some o) pcb.cb.getRetTypes (retASTFields env pcb) retCds) :
    (makeEthereumMethodLogged env (some o) name pcb).2 =
      callsFrom env o true 0 pcb.cb.getArgTypes argCds ++
        callsFrom env o false 0 pcb.cb.getRetTypes retCds := by
  have hp1 : (paramsLogged env (some o) pcb o.ContentDescriptorSkipFn).1 =
      .ok ([] ++ survivorsFrom o true 0 argCds) := by
    unfold paramsLogged
    rw [descriptorLoopLogged_fst]
    exact descriptorLoop_ok env o true (argASTFields env pcb) pcb.cb.getArgTypes 0 []
      argCds (by simpa using hargs) (by simpa using hP)
  have hp2 : (paramsLogged env (some o) pcb o.ContentDescriptorSkipFn).2 =
      callsFrom env o true 0 pcb.cb.getArgTypes argCds := by
    unfold paramsLogged
    exact descriptorLoopLogged_snd env o true (argASTFields env pcb) pcb.cb.getArgTypes 0 []
      argCds (by simpa using hargs) (by simpa using hP)
  have hl1 : (descriptorLoopLogged env (some o) false (retASTFields env pcb)
      o.ContentDescriptorSkipFn 0 pcb.cb.getRetTypes []).1 =
      .ok ([] ++ survivorsFrom o false 0 retCds) := by
    rw [descriptorLoopLogged_fst]
    exact descriptorLoop_ok env o false (retASTFields env pcb) pcb.cb.getRetTypes 0 []
      retCds (by simpa using hrets) (by simpa using hR)
  have hl2 := descriptorLoopLogged_snd env o false (retASTFields env pcb)
    pcb.cb.getRetTypes 0 [] retCds (by simpa using hrets) (by simpa using hR)
  have hr : ∃ x tl, retsLogged env (some o) pcb o.ContentDescriptorSkipFn =
      (.ok (x :: tl), callsFrom env o false 0 pcb.cb.getRetTypes retCds) := by
    unfold retsLogged
    simp only [hl1, hl2]
    cases hsv : survivorsFrom o false 0 retCds with
    | nil => exact ⟨env.nullContentDescriptor, [], by simp⟩
    | cons x xs => exact ⟨x, xs, by simp⟩
  obtain ⟨x, tl, hr⟩ := hr
  unfold makeEthereumMethodLogged
  simp only [hp1, hp2, hr, List.getElem?_cons_zero]

theorem mem_callsFrom {Ty Schema : Type} (env : Env Ty Schema)
    (o : DocumentProviderParseOpts Schema) (isArgs : Bool) (i : Nat) (tys : List Ty)
    (cds : List (ContentDescriptor Schema)) (ev : HookCall Schema) :
    ev ∈ callsFrom env o isArgs i tys cds ↔
      ∃ k ty cd, tys[k]? = some ty ∧ cds[k]? = some cd ∧
        ev ∈ positionCalls env o isArgs (i + k) ty cd := by
  induction tys generalizing i cds with
  | nil => simp [callsFrom]
  | cons ty tys ih =>
    cases cds with
    | nil => simp [callsFrom]
    | cons cd cds =>
      rw [callsFrom_cons, List.mem_append, ih]
      constructor
      · rintro (h | ⟨k, ty1, cd1, h1, h2, h3⟩)
        · exact ⟨0, ty, cd, by simp, by simp, by simpa using h⟩
        · refine ⟨k + 1, ty1, cd1, by simpa using h1, by simpa using h2, ?_⟩
          have harith : i + (k + 1) = i + 1 + k := by omega
          rw [harith]
          exact h3
      · rintro ⟨k, ty1, cd1, h1, h2, h3⟩
        cases k with
        | zero =>
          simp only [List.getElem?_cons_zero, Option.some.injEq] at h1 h2
          subst h1 h2
          exact Or.inl (by simpa using h3)
        | succ k =>
          simp only [List.getElem?_cons_succ] at h1 h2
          have harith : i + (k + 1) = i + 1 + k := by omega
          rw [harith] at h3
          exact Or.inr ⟨k, ty1, cd1, h1, h2, h3⟩

theorem mem_positionCalls_skip {Ty Schema : Type} (env : Env Ty Schema)
    (o : DocumentProviderParseOpts Schema) (isArgs : Bool) (i : Nat) (ty : Ty)
    (cd : ContentDescriptor Schema) (b : Bool) (j : Nat) (c : ContentDescriptor Schema) :
    HookCall.skip b j c ∈ positionCalls env o isArgs i ty cd ↔
      o.ContentDescriptorSkipFn ≠ none ∧ b = isArgs ∧ j = i ∧ c = cd := by
  unfold positionCalls schemaCalls skipCalls mutationCalls
  cases hsk : o.ContentDescriptorSkipFn with
  | none =>
    by_cases hs : skipped none isArgs i cd = true <;> simp [hs]
  | some fn =>
    by_cases hs : skipped (some fn) isArgs i cd = true <;> simp [hs]

theorem mem_positionCalls_mutation {Ty Schema : Type} (env : Env Ty Schema)
    (o : DocumentProviderParseOpts Schema) (isArgs : Bool) (i : Nat) (ty : Ty)
    (cd : ContentDescriptor Schema) (k : Nat) (b : Bool) (j : Nat)
    (c : ContentDescriptor Schema) :
    HookCall.mutation k b j c ∈ positionCalls env o isArgs i ty cd ↔
      skipped o.ContentDescriptorSkipFn isArgs i cd = false ∧
      k < o.ContentDescriptorMutationFns.length ∧ b = isArgs ∧ j = i ∧
      c = applyContentDescriptorMutations (o.ContentDescriptorMutationFns.take k)
        isArgs i cd := by
  unfold positionCalls schemaCalls skipCalls mutationCalls
  cases hsk : o.ContentDescriptorSkipFn with
  | none =>
    by_cases hs : skipped none isArgs i cd = true
    · simp [hs]
    · simp only [hs]
      simp only [Bool.not_eq_true] at hs
      simp [hs, List.mem_range]
      constructor
      · rintro ⟨a, ha, h1, h2, h3, h4⟩
        subst h1
        exact ⟨ha, h2.symm, h3.symm, h4.symm⟩
      · rintro ⟨h1, h2, h3, h4⟩
        exact ⟨k, h1, rfl, h2.symm, h3.symm, h4.symm⟩
  | some fn =>
    by_cases hs : skipped (some fn) isArgs i cd = true
    · simp [hs]
    · simp only [hs]
      simp only [Bool.not_eq_true] at hs
      simp [hs, List.mem_range]
      constructor
      · rintro ⟨a, ha, h1, h2, h3, h4⟩
        subst h1
        exact ⟨ha, h2.symm, h3.symm, h4.symm⟩
      · rintro ⟨h1, h2, h3, h4⟩
        exact ⟨k, h1, rfl, h2.symm, h3.symm, h4.symm⟩

theorem applySchemaMutationsLogged_flag {Schema : Type}
    (fns : List (Schema → Schema × Option GoError)) (k : Nat) (sch : Schema)
    (ev : HookCall Schema) (h : ev ∈ (applySchemaMutationsLogged k fns sch).2) :
    ev.flag = none := by
  induction fns generalizing k sch with
  | nil => simp [applySchemaMutationsLogged] at h
  | cons mutation rest ih =>
    unfold applySchemaMutationsLogged at h
    rcases hm : mutation sch with ⟨sch1, _ | err⟩
    · rw [hm] at h
      simp only [List.mem_cons] at h
      rcases h with h | h
      · subst h; rfl
      · exact ih (k + 1) sch1 h
    · rw [hm] at h
      simp only [List.mem_singleton] at h
      subst h
      rfl

theorem contentDescriptorLogged_flag {Ty Schema : Type} (env : Env Ty Schema)
    (opts : Option (DocumentProviderParseOpts Schema)) (ty : Ty) (f : NamedField)
    (ev : HookCall Schema) (h : ev ∈ (contentDescriptorLogged env opts ty f).2) :
    ev.flag = none := by
  unfold contentDescriptorLogged at h
  cases opts with
  | none => simp at h
  | some o =>
    by_cases hlen : o.SchemaMutationFns.length > 0
    · simp only [hlen, if_true] at h
      have hmem : ev ∈ (applySchemaMutationsLogged 0 o.SchemaMutationFns
          (env.typeToSchema (some o) ty)).2 := by
        cases hc : (applySchemaMutationsLogged 0 o.SchemaMutationFns
          (env.typeToSchema (some o) ty)).1 <;> (rw [hc] at h; exact h)
      exact applySchemaMutationsLogged_flag _ _ _ ev hmem
    · simp only [hlen, if_false] at h
      simp at h

theorem skippedLogged_flag {Schema : Type}
    (skipFn : Option (Bool → Nat → ContentDescriptor Schema → Bool))
    (isArgs : Bool) (i : Nat) (cd : ContentDescriptor Schema) (ev : HookCall Schema)
    (h : ev ∈ (skippedLogged skipFn isArgs i cd).2) : ev.flag = some isArgs := by
  cases skipFn with
  | none => simp [skippedLogged] at h
  | some fn =>
    simp only [skippedLogged, List.mem_singleton] at h
    subst h
    rfl

theorem applyContentDescriptorMutationsLogged_flag {Schema : Type}
    (fns : List (Bool → Nat → ContentDescriptor Schema → ContentDescriptor Schema))
    (k : Nat) (isArgs : Bool) (i : Nat) (cd : ContentDescriptor Schema)
    (ev : HookCall Schema)
    (h : ev ∈ (applyContentDescriptorMutationsLogged k fns isArgs i cd).2) :
    ev.flag = some isArgs := by
  rw [applyContentDescriptorMutationsLogged_snd, List.mem_map] at h
  obtain ⟨j, _, hj⟩ := h
  subst hj
  rfl

/-- Whatever its outcome, the loop run with `isArgs` calls the skip predicate
and the content-descriptor mutators with that `isArgs` only. -/
theorem descriptorLoopLogged_flag {Ty Schema : Type} (env : Env Ty Schema)
    (opts : Option (DocumentProviderParseOpts Schema)) (isArgs : Bool)
    (astFields : List NamedField)
    (skipFn : Option (Bool → Nat → ContentDescriptor Schema → Bool))
    (tys : List Ty) (i : Nat) (out : List (ContentDescriptor Schema))
    (ev : HookCall Schema)
    (h : ev ∈ (descriptorLoopLogged env opts isArgs astFields skipFn i tys out).2) :
    ev.flag = none ∨ ev.flag = some isArgs := by
  induction tys generalizing i out with
  | nil => simp [descriptorLoopLogged] at h
  | cons a rest ih =>
    unfold descriptorLoopLogged at h
    cases hf : astFields[i]? with
    | none => rw [hf] at h; simp at h
    | some f =>
      rw [hf] at h
      simp only at h
      have hcd := contentDescriptorLogged_flag env opts a f ev
      have hsk := fun cd => skippedLogged_flag skipFn isArgs i cd ev
      cases hc : (contentDescriptorLogged env opts a f).1 with
      | error e => rw [hc] at h; exact Or.inl (hcd h)
      | panic q => rw [hc] at h; exact Or.inl (hcd h)
      | ok cd =>
        rw [hc] at h
        simp only at h
        by_cases hs : (skippedLogged skipFn isArgs i cd).1 = true
        · simp only [hs, if_true, List.mem_append] at h
          rcases h with (h | h) | h
          · exact Or.inl (hcd h)
          · exact Or.inr (hsk cd h)
          · exact ih _ _ h
        · simp only [hs] at h
          cases opts with
          | none =>
            have h1 : ev ∈ (contentDescriptorLogged env none a f).2 ∨
                ev ∈ (skippedLogged skipFn isArgs i cd).2 := by
              simpa [List.mem_append] using h
            rcases h1 with h1 | h1
            · exact Or.inl (hcd h1)
            · exact Or.inr (hsk cd h1)
          | some o =>
            have h1 : ev ∈ (contentDescriptorLogged env (some o) a f).2 ∨
                ev ∈ (skippedLogged skipFn isArgs i cd).2 ∨
                ev ∈ (applyContentDescriptorMutationsLogged 0
                  o.ContentDescriptorMutationFns isArgs i cd).2 ∨
                ev ∈ (descriptorLoopLogged env (some o) isArgs astFields skipFn (i + 1) rest
                  (out ++ [(applyContentDescriptorMutationsLogged 0
                    o.ContentDescriptorMutationFns isArgs i cd).1])).2 := by
              simpa [List.mem_append, or_assoc] using h
            rcases h1 with h1 | h1 | h1 | h1
            · exact Or.inl (hcd h1)
            · exact Or.inr (hsk cd h1)
            · exact Or.inr (applyContentDescriptorMutationsLogged_flag _ _ _ _ _ ev h1)
            · exact ih _ _ h1

/-- For a handler without runtime return type, every recorded call was made by
the parameter loop. -/
theorem makeEthereumMethodLogged_no_returns {Ty Schema : Type} (env : Env Ty Schema)
    (opts : Option (DocumentProviderParseOpts Schema)) (name : String)
    (pcb : parsedCallback Ty) (hR0 : pcb.cb.getRetTypes = []) (ev : HookCall Schema)
    (h : ev ∈ (makeEthereumMethodLogged env opts name pcb).2) :
    ev.flag = none ∨ ev.flag = some true := by
  unfold makeEthereumMethodLogged at h
  cases opts with
  | none => simp at h
  | some o =>
    simp only at h
    have hrets : retsLogged env (some o) pcb o.ContentDescriptorSkipFn =
        (.ok [env.nullContentDescriptor], []) := by
      unfold retsLogged
      rw [hR0]
      simp [descriptorLoopLogged]
    have hps : ev ∈ (paramsLogged env (some o) pcb o.ContentDescriptorSkipFn).2 := by
      cases hc : (paramsLogged env (some o) pcb o.ContentDescriptorSkipFn).1 with
      | error e => rw [hc] at h; exact h
      | panic q => rw [hc] at h; exact h
      | ok ps =>
        rw [hc, hrets] at h
        simpa using h
    exact descriptorLoopLogged_flag env (some o) true _ _ _ 0 [] ev hps

theorem getElem?_of_length_eq {α β : Type} (xs : List α) (ys : List β)
    (hlen : ys.length = xs.length) (j : Nat) (y : β) (h : ys[j]? = some y) :
    ∃ x, xs[j]? = some x := by
  have hj : j < ys.length := by
    by_contra hcon
    rw [List.getElem?_eq_none (by omega)] at h
    simp at h
  exact ⟨xs[j], List.getElem?_eq_getElem (by omega)⟩

theorem mem_callsFrom_skip {Ty Schema : Type} (env : Env Ty Schema)
    (o : DocumentProviderParseOpts Schema) (isArgs : Bool) (tys : List Ty)
    (cds : List (ContentDescriptor Schema)) (hlen : cds.length = tys.length)
    (b : Bool) (j : Nat) (c : ContentDescriptor Schema) :
    HookCall.skip b j c ∈ callsFrom env o isArgs 0 tys cds ↔
      o.ContentDescriptorSkipFn ≠ none ∧ b = isArgs ∧ cds[j]? = some c := by
  rw [mem_callsFrom]
  constructor
  · rintro ⟨k, ty, cd, _, hcd, hmem⟩
    rw [mem_positionCalls_skip] at hmem
    obtain ⟨h1, h2, h3, h4⟩ := hmem
    simp only [Nat.zero_add] at h3
    subst h3 h4
    exact ⟨h1, h2, hcd⟩
  · rintro ⟨h1, h2, h3⟩
    obtain ⟨ty, hty⟩ := getElem?_of_length_eq tys cds hlen j c h3
    refine ⟨j, ty, c, hty, h3, ?_⟩
    rw [mem_positionCalls_skip]
    refine ⟨h1, h2, ?_⟩
    simp

theorem mem_callsFrom_mutation {Ty Schema : Type} (env : Env Ty Schema)
    (o : DocumentProviderParseOpts Schema) (isArgs : Bool) (tys : List Ty)
    (cds : List (ContentDescriptor Schema)) (hlen : cds.length = tys.length)
    (k : Nat) (b : Bool) (j : Nat) (c : ContentDescriptor Schema) :
    HookCall.mutation k b j c ∈ callsFrom env o isArgs 0 tys cds ↔
      k < o.ContentDescriptorMutationFns.length ∧ b = isArgs ∧
      ∃ cd, cds[j]? = some cd ∧
        skipped o.ContentDescriptorSkipFn isArgs j cd = false ∧
        c = applyContentDescriptorMutations (o.ContentDescriptorMutationFns.take k)
          isArgs j cd := by
  rw [mem_callsFrom]
  constructor
  · rintro ⟨i, ty, cd, _, hcd, hmem⟩
    rw [mem_positionCalls_mutation] at hmem
    obtain ⟨h1, h2, h3, h4, h5⟩ := hmem
    simp only [Nat.zero_add] at h1 h4 h5
    subst h4
    exact ⟨h2, h3, cd, hcd, h1, h5⟩
  · rintro ⟨h1, h2, cd, h3, h4, h5⟩
    obtain ⟨ty, hty⟩ := getElem?_of_length_eq tys cds hlen j cd h3
    refine ⟨j, ty, cd, hty, h3, ?_⟩
    rw [mem_positionCalls_mutation]
    simp only [Nat.zero_add]
    exact ⟨h4, h1, h2, trivial, h5⟩

theorem built_schema {Ty Schema : Type} (env : Env Ty Schema)
    (o : DocumentProviderParseOpts Schema) (tys : List Ty) (fs : List NamedField)
    (cds : List (ContentDescriptor Schema)) (hb : Built env (some o) tys fs cds)
    (hlen : tys.length ≤ fs.length) (j : Nat) (ty : Ty) (cd : ContentDescriptor Schema)
    (hty : tys[j]? = some ty) (hcd : cds[j]? = some cd) :
    cd.Schema = o.SchemaMutationFns.foldl (fun s mutation => (mutation s).1)
      (env.typeToSchema (some o) ty) := by
  have hj : j < tys.length := by
    by_contra hcon
    rw [List.getElem?_eq_none (by omega)] at hty
    simp at hty
  obtain ⟨f, hf, _⟩ := drop_eq_cons_of_lt fs j (by omega)
  obtain ⟨cd1, hcd1, hok⟩ := built_getElem env (some o) tys fs cds hb j ty f hty hf
  rw [hcd] at hcd1
  simp only [Option.some.injEq] at hcd1
  subst hcd1
  exact applySchemaMutations_ok_foldl _ _ _ (contentDescriptor_ok_pass env o ty f cd hok)

/-- C12: for a handler that builds, the hook calls are those of the parameter
positions followed by those of the return positions, and at each position they
are, in this order: every configured schema mutator once, in declared order,
each on the output of the previous one; then the skip predicate, on the
freshly built descriptor, whose schema is the fully mutated one and on which no
content-descriptor mutator has run; then the content-descriptor mutators, and
only if the predicate did not drop the position. -/
theorem makeEthereumMethodLogged_call_order {Ty Schema : Type} (env : Env Ty Schema)
    (o : DocumentProviderParseOpts Schema) (name : String) (pcb : parsedCallback Ty)
    (hP : pcb.cb.getArgTypes.length ≤ (argASTFields env pcb).length)
    (hR : pcb.cb.getRetTypes.length ≤ (retASTFields env pcb).length)
    (hpass : SchemaMutationsPass env o (pcb.cb.getArgTypes ++ pcb.cb.getRetTypes)) :
    ∃ m argCds retCds,
      (makeEthereumMethodLogged env (some o) name pcb).1 = .ok m ∧
      (makeEthereumMethodLogged env (some o) name pcb).2 =
        callsFrom env o true 0 pcb.cb.getArgTypes argCds ++
          callsFrom env o false 0 pcb.cb.getRetTypes retCds ∧
      Built env (some o) pcb.cb.getArgTypes (argASTFields env pcb) argCds ∧
      Built env (some o) pcb.cb.getRetTypes (retASTFields env pcb) retCds ∧
      (∀ (isArgs : Bool) (j : Nat) (ty : Ty) (cd : ContentDescriptor Schema),
        positionCalls env o isArgs j ty cd =
          (List.range o.SchemaMutationFns.length).map
              (fun k => HookCall.schemaMutation k
                ((o.SchemaMutationFns.take k).foldl (fun s mutation => (mutation s).1)
                  (env.typeToSchema (some o) ty))) ++
            (if o.ContentDescriptorSkipFn.isSome then [HookCall.skip isArgs j cd] else []) ++
            (if skipped o.ContentDescriptorSkipFn isArgs j cd then []
             else (List.range o.ContentDescriptorMutationFns.length).map
              (fun k => HookCall.mutation k isArgs j
                (applyContentDescriptorMutations (o.ContentDescriptorMutationFns.take k)
                  isArgs j cd)))) ∧
      (∀ (j : Nat) (ty : Ty) (cd : ContentDescriptor Schema),
        (pcb.cb.getArgTypes[j]? = some ty ∧ argCds[j]? = some cd) ∨
          (pcb.cb.getRetTypes[j]? = some ty ∧ retCds[j]? = some cd) →
        cd.Schema = o.SchemaMutationFns.foldl (fun s mutation => (mutation s).1)
          (env.typeToSchema (some o) ty)) ∧
      (∀ k b j c,
        HookCall.mutation k b j c ∈ (makeEthereumMethodLogged env (some o) name pcb).2 →
        ∃ cd, ((b = true ∧ argCds[j]? = some cd) ∨ (b = false ∧ retCds[j]? = some cd)) ∧
          skipped o.ContentDescriptorSkipFn b j cd = false) := by
  obtain ⟨argCds, hargs⟩ := built_of_pass env o pcb.cb.getArgTypes (argASTFields env pcb)
    (pass_append_left env o _ _ hpass)
  obtain ⟨retCds, hrets⟩ := built_of_pass env o pcb.cb.getRetTypes (retASTFields env pcb)
    (pass_append_right env o _ _ hpass)
  have hlog := makeEthereumMethodLogged_ok env o name pcb argCds retCds hP hR hargs hrets
  have hlenA := built_length env (some o) _ _ _ hargs hP
  have hlenR := built_length env (some o) _ _ _ hrets hR
  have hm := makeEthereumMethod_ok env o name pcb argCds retCds hP hR hargs hrets
  refine ⟨_, argCds, retCds, (makeEthereumMethodLogged_fst env (some o) name pcb).trans hm,
    hlog, hargs, hrets, ?_, ?_, ?_⟩
  · intro isArgs j ty cd
    unfold positionCalls schemaCalls skipCalls mutationCalls
    cases o.ContentDescriptorSkipFn <;> rfl
  · intro j ty cd hpos
    rcases hpos with ⟨hty, hcd⟩ | ⟨hty, hcd⟩
    · exact built_schema env o _ _ _ hargs hP j ty cd hty hcd
    · exact built_schema env o _ _ _ hrets hR j ty cd hty hcd
  · intro k b j c hmem
    rw [hlog, List.mem_append, mem_callsFrom_mutation env o true _ _ hlenA,
      mem_callsFrom_mutation env o false _ _ hlenR] at hmem
    rcases hmem with ⟨_, hb, cd, hcd, hs, _⟩ | ⟨_, hb, cd, hcd, hs, _⟩
    · subst hb
      exact ⟨cd, Or.inl ⟨rfl, hcd⟩, hs⟩
    · subst hb
      exact ⟨cd, Or.inr ⟨rfl, hcd⟩, hs⟩

/-- Witness of C12 on `Add`, built with `exOptsAllHooks`: the calls made for
parameter 0, which is dropped, and for parameter 1, which is kept. -/
theorem makeEthereumMethodLogged_call_order_witness :
    exAdd.cb.getArgTypes.length ≤ (argASTFields exEnv exAdd).length ∧
    exAdd.cb.getRetTypes.length ≤ (retASTFields exEnv exAdd).length ∧
    SchemaMutationsPass exEnv exOptsAllHooks
      (exAdd.cb.getArgTypes ++ exAdd.cb.getRetTypes) ∧
    (∃ m : Method String,
      (makeEthereumMethodLogged exEnv (some exOptsAllHooks) "Add" exAdd).1 = .ok m) ∧
    (makeEthereumMethodLogged exEnv (some exOptsAllHooks) "Add" exAdd).2.take 8 =
      [.schemaMutation 0 "schema:context.Context",
        .schemaMutation 1 "schema:context.Context!",
        .skip true 0 ⟨"ctx", "", "context.Context", true, "schema:context.Context!?"⟩,
        .schemaMutation 0 "schema:int",
        .schemaMutation 1 "schema:int!",
        .skip true 1 ⟨"a", "", "int", true, "schema:int!?"⟩,
        .mutation 0 true 1 ⟨"a", "", "int", true, "schema:int!?"⟩,
        .mutation 1 true 1 ⟨"a", "", "intA", true, "schema:int!?"⟩] :=
  have hpass : SchemaMutationsPass exEnv exOptsAllHooks
      (exAdd.cb.getArgTypes ++ exAdd.cb.getRetTypes) :=
    fun _ _ => ⟨_, rfl⟩
  ⟨by decide, by decide, hpass,
    (makeEthereumMethodLogged_call_order exEnv exOptsAllHooks "Add" exAdd (by decide)
      (by decide) hpass).imp (fun _ h => h.elim (fun _ h1 => h1.elim (fun _ h2 => h2.1))),
    rfl⟩

/-- C15: for a handler that builds, the skip predicate is called exactly on
the freshly built descriptors, with `isArgs` = true and the runtime position
for a parameter and `isArgs` = false and the runtime position for a return
value; content-descriptor mutator `k` is called exactly on the positions that
are not skipped, with the same flag and runtime position; the entries of
`Params` are the descriptors mutated with their runtime position, so that once
parameter 0 is dropped the first entry of `Params` is parameter 1 mutated with
index 1. -/
theorem makeEthereumMethodLogged_original_index {Ty Schema : Type} (env : Env Ty Schema)
    (o : DocumentProviderParseOpts Schema) (name : String) (pcb : parsedCallback Ty)
    (hP : pcb.cb.getArgTypes.length ≤ (argASTFields env pcb).length)
    (hR : pcb.cb.getRetTypes.length ≤ (retASTFields env pcb).length)
    (hpass : SchemaMutationsPass env o (pcb.cb.getArgTypes ++ pcb.cb.getRetTypes)) :
    ∃ m argCds retCds,
      (makeEthereumMethodLogged env (some o) name pcb).1 = .ok m ∧
      Built env (some o) pcb.cb.getArgTypes (argASTFields env pcb) argCds ∧
      Built env (some o) pcb.cb.getRetTypes (retASTFields env pcb) retCds ∧
      (∀ b j c,
        HookCall.skip b j c ∈ (makeEthereumMethodLogged env (some o) name pcb).2 ↔
          o.ContentDescriptorSkipFn ≠ none ∧
            ((b = true ∧ argCds[j]? = some c) ∨ (b = false ∧ retCds[j]? = some c))) ∧
      (∀ k b j c,
        HookCall.mutation k b j c ∈ (makeEthereumMethodLogged env (some o) name pcb).2 ↔
          k < o.ContentDescriptorMutationFns.length ∧
            ∃ cd, ((b = true ∧ argCds[j]? = some cd) ∨ (b = false ∧ retCds[j]? = some cd)) ∧
              skipped o.ContentDescriptorSkipFn b j cd = false ∧
              c = applyContentDescriptorMutations (o.ContentDescriptorMutationFns.take k)
                b j cd) ∧
      (∀ d, d ∈ m.Params ↔
        ∃ j cd, argCds[j]? = some cd ∧
          skipped o.ContentDescriptorSkipFn true j cd = false ∧
          d = applyContentDescriptorMutations o.ContentDescriptorMutationFns true j cd) ∧
      (∀ cd0 cd1, argCds[0]? = some cd0 → argCds[1]? = some cd1 →
        skipped o.ContentDescriptorSkipFn true 0 cd0 = true →
        skipped o.ContentDescriptorSkipFn true 1 cd1 = false →
        m.Params[0]? =
          some (applyContentDescriptorMutations o.ContentDescriptorMutationFns true 1 cd1)) := by
  obtain ⟨argCds, hargs⟩ := built_of_pass env o pcb.cb.getArgTypes (argASTFields env pcb)
    (pass_append_left env o _ _ hpass)
  obtain ⟨retCds, hrets⟩ := built_of_pass env o pcb.cb.getRetTypes (retASTFields env pcb)
    (pass_append_right env o _ _ hpass)
  have hlog := makeEthereumMethodLogged_ok env o name pcb argCds retCds hP hR hargs hrets
  have hlenA := built_length env (some o) _ _ _ hargs hP
  have hlenR := built_length env (some o) _ _ _ hrets hR
  have hm := makeEthereumMethod_ok env o name pcb argCds retCds hP hR hargs hrets
  refine ⟨_, argCds, retCds, (makeEthereumMethodLogged_fst env (some o) name pcb).trans hm,
    hargs, hrets, ?_, ?_, ?_, ?_⟩
  · intro b j c
    rw [hlog, List.mem_append, mem_callsFrom_skip env o true _ _ hlenA,
      mem_callsFrom_skip env o false _ _ hlenR]
    constructor
    · rintro (⟨h1, h2, h3⟩ | ⟨h1, h2, h3⟩)
      · exact ⟨h1, Or.inl ⟨h2, h3⟩⟩
      · exact ⟨h1, Or.inr ⟨h2, h3⟩⟩
    · rintro ⟨h1, ⟨h2, h3⟩ | ⟨h2, h3⟩⟩
      · exact Or.inl ⟨h1, h2, h3⟩
      · exact Or.inr ⟨h1, h2, h3⟩
  · intro k b j c
    rw [hlog, List.mem_append, mem_callsFrom_mutation env o true _ _ hlenA,
      mem_callsFrom_mutation env o false _ _ hlenR]
    constructor
    · rintro (⟨h1, h2, cd, h3, h4, h5⟩ | ⟨h1, h2, cd, h3, h4, h5⟩)
      · subst h2
        exact ⟨h1, cd, Or.inl ⟨rfl, h3⟩, h4, h5⟩
      · subst h2
        exact ⟨h1, cd, Or.inr ⟨rfl, h3⟩, h4, h5⟩
    · rintro ⟨h1, cd, ⟨h2, h3⟩ | ⟨h2, h3⟩, h4, h5⟩
      · subst h2
        exact Or.inl ⟨h1, rfl, cd, h3, h4, h5⟩
      · subst h2
        exact Or.inr ⟨h1, rfl, cd, h3, h4, h5⟩
  · intro d
    simpa using mem_survivorsFrom o true 0 argCds d
  · intro cd0 cd1 h0 h1 hs0 hs1
    cases argCds with
    | nil => simp at h0
    | cons c0 cs =>
      cases cs with
      | nil => simp at h1
      | cons c1 cs1 =>
        simp only [List.getElem?_cons_zero, List.getElem?_cons_succ,
          Option.some.injEq] at h0 h1
        subst h0 h1
        simp only [survivorsFrom_cons, hs0, if_true]
        have hs1b : skipped o.ContentDescriptorSkipFn true (0 + 1) c1 = false := by
          simpa using hs1
        simp [hs1b]

/-- Witness of C15 on `Add`, built with `exOptsSkipFirst`: parameter 0 is
dropped and the mutator is called on parameters 1 and 2 with the indexes 1 and
2, then on the return positions with `isArgs` = false. -/
theorem makeEthereumMethodLogged_original_index_witness :
    exAdd.cb.getArgTypes.length ≤ (argASTFields exEnv exAdd).length ∧
    exAdd.cb.getRetTypes.length ≤ (retASTFields exEnv exAdd).length ∧
    SchemaMutationsPass exEnv exOptsSkipFirst
      (exAdd.cb.getArgTypes ++ exAdd.cb.getRetTypes) ∧
    (∃ m : Method String,
      (makeEthereumMethodLogged exEnv (some exOptsSkipFirst) "Add" exAdd).1 = .ok m) ∧
    (makeEthereumMethodLogged exEnv (some exOptsSkipFirst) "Add" exAdd).2 =
      [.skip true 0 ⟨"ctx", "", "context.Context", true, "schema:context.Context"⟩,
        .skip true 1 ⟨"a", "", "int", true, "schema:int"⟩,
        .mutation 0 true 1 ⟨"a", "", "int", true, "schema:int"⟩,
        .skip true 2 ⟨"b", "", "int", true, "schema:int"⟩,
        .mutation 0 true 2 ⟨"b", "", "int", true, "schema:int"⟩,
        .skip false 0 ⟨"sum", "", "int", true, "schema:int"⟩,
        .mutation 0 false 0 ⟨"sum", "", "int", true, "schema:int"⟩,
        .skip false 1 ⟨"err", "", "error", true, "schema:error"⟩,
        .mutation 0 false 1 ⟨"err", "", "error", true, "schema:error"⟩] :=
  have hpass : SchemaMutationsPass exEnv exOptsSkipFirst
      (exAdd.cb.getArgTypes ++ exAdd.cb.getRetTypes) :=
    fun _ _ => ⟨_, rfl⟩
  ⟨by decide, by decide, hpass,
    (makeEthereumMethodLogged_original_index exEnv exOptsSkipFirst "Add" exAdd (by decide)
      (by decide) hpass).imp (fun _ h => h.elim (fun _ h1 => h1.elim (fun _ h2 => h2.1))),
    rfl⟩

theorem result_null_of_no_returns {Ty Schema : Type} (env : Env Ty Schema)
    (opts : Option (DocumentProviderParseOpts Schema)) (name : String)
    (pcb : parsedCallback Ty) (hR0 : pcb.cb.getRetTypes = []) (m : Method Schema)
    (hm : makeEthereumMethod env opts name pcb = .ok m) :
    m.Result = some env.nullContentDescriptor := by
  unfold makeEthereumMethod at hm
  cases opts with
  | none => simp at hm
  | some o =>
    have hrets : rets env (some o) pcb o.ContentDescriptorSkipFn =
        .ok [env.nullContentDescriptor] := by
      unfold rets
      rw [hR0]
      simp [descriptorLoop]
    simp only [hrets] at hm
    cases hp : params env (some o) pcb o.ContentDescriptorSkipFn with
    | error e => rw [hp] at hm; simp at hm
    | panic q => rw [hp] at hm; simp at hm
    | ok ps =>
      rw [hp] at hm
      simp only [List.getElem?_cons_zero, Outcome.ok.injEq] at hm
      rw [← hm]

/-- C16: for a handler without runtime return type, every returned Method has
`Result` = `nullContentDescriptor` itself, and neither the skip predicate nor a
content-descriptor mutator is called with `isArgs` = false, whatever the
outcome; for a handler that builds and whose return positions are all skipped,
`Result` is `nullContentDescriptor` itself and no content-descriptor mutator is
called with `isArgs` = false, so the placeholder goes through no hook. -/
theorem makeEthereumMethodLogged_null_result {Ty Schema : Type} (env : Env Ty Schema)
    (opts : Option (DocumentProviderParseOpts Schema)) (name : String)
    (pcb : parsedCallback Ty) :
    (pcb.cb.getRetTypes = [] →
      (∀ m, (makeEthereumMethodLogged env opts name pcb).1 = .ok m →
        m.Result = some env.nullContentDescriptor) ∧
      (∀ j c, HookCall.skip false j c ∉ (makeEthereumMethodLogged env opts name pcb).2) ∧
      (∀ k j c,
        HookCall.mutation k false j c ∉ (makeEthereumMethodLogged env opts name pcb).2)) ∧
    (∀ o retCds, opts = some o →
      pcb.cb.getArgTypes.length ≤ (argASTFields env pcb).length →
      pcb.cb.getRetTypes.length ≤ (retASTFields env pcb).length →
      SchemaMutationsPass env o pcb.cb.getArgTypes →
      Built env (some o) pcb.cb.getRetTypes (retASTFields env pcb) retCds →
      (∀ j cd, retCds[j]? = some cd →
        skipped o.ContentDescriptorSkipFn false j cd = true) →
      ∃ m, (makeEthereumMethodLogged env opts name pcb).1 = .ok m ∧
        m.Result = some env.nullContentDescriptor ∧
        ∀ k j c,
          HookCall.mutation k false j c ∉ (makeEthereumMethodLogged env opts name pcb).2) := by
  constructor
  · intro hR0
    refine ⟨?_, ?_, ?_⟩
    · intro m hm
      rw [makeEthereumMethodLogged_fst] at hm
      exact result_null_of_no_returns env opts name pcb hR0 m hm
    · intro j c hmem
      rcases makeEthereumMethodLogged_no_returns env opts name pcb hR0 _ hmem with h | h
      · exact Option.noConfusion h
      · simp [HookCall.flag] at h
    · intro k j c hmem
      rcases makeEthereumMethodLogged_no_returns env opts name pcb hR0 _ hmem with h | h
      · exact Option.noConfusion h
      · simp [HookCall.flag] at h
  · intro o retCds ho hP hR hpassA hrets hall
    subst ho
    obtain ⟨argCds, hargs⟩ := built_of_pass env o pcb.cb.getArgTypes (argASTFields env pcb)
      hpassA
    have hlog := makeEthereumMethodLogged_ok env o name pcb argCds retCds hP hR hargs hrets
    have hlenA := built_length env (some o) _ _ _ hargs hP
    have hlenR := built_length env (some o) _ _ _ hrets hR
    have hm := makeEthereumMethod_ok env o name pcb argCds retCds hP hR hargs hrets
    have hnil : survivorsFrom o false 0 retCds = [] :=
      survivorsFrom_eq_nil o false 0 retCds (by simpa using hall)
    refine ⟨_, (makeEthereumMethodLogged_fst env (some o) name pcb).trans hm, ?_, ?_⟩
    · simp only [hnil]
      rfl
    · intro k j c hmem
      rw [hlog, List.mem_append, mem_callsFrom_mutation env o true _ _ hlenA,
        mem_callsFrom_mutation env o false _ _ hlenR] at hmem
      rcases hmem with ⟨_, hb, _⟩ | ⟨_, _, cd, hcd, hs, _⟩
      · exact Bool.noConfusion hb
      · rw [hall j cd hcd] at hs
        exact Bool.noConfusion hs

/-- Witness of C16 on `Ping`, which returns nothing, and on `Add` built with
`exOptsSkipReturns`, which skips both return positions. -/
theorem makeEthereumMethodLogged_null_result_witness :
    exPing.cb.getRetTypes = [] ∧
    (∀ j c, HookCall.skip false j c ∉
      (makeEthereumMethodLogged exEnv (some exOptsSkipReturns) "Ping" exPing).2) ∧
    (makeEthereumMethodLogged exEnv (some exOptsSkipReturns) "Ping" exPing).1 =
      .ok { Name := "Ping", Summary := "", Description := "`func(int)`",
            ExternalDocs := ⟨"line=40", "file://calc.go"⟩,
            Params := [⟨"a", "", "intA", true, "schema:int!"⟩],
            Result := some exEnv.nullContentDescriptor, Deprecated := false } ∧
    (∃ m, (makeEthereumMethodLogged exEnv (some exOptsSkipReturns) "Add" exAdd).1 = .ok m ∧
      m.Result = some exEnv.nullContentDescriptor) :=
  ⟨rfl,
    ((makeEthereumMethodLogged_null_result exEnv (some exOptsSkipReturns) "Ping" exPing).1
      rfl).2.1,
    rfl,
    ((makeEthereumMethodLogged_null_result exEnv (some exOptsSkipReturns) "Add" exAdd).2
      exOptsSkipReturns
      [⟨"sum", "", "int", true, "schema:int!"⟩, ⟨"err", "", "error", true, "schema:error!"⟩]
      rfl (by decide) (by decide) (fun _ _ => ⟨_, rfl⟩)
      (List.Forall₂.cons rfl (List.Forall₂.cons rfl List.Forall₂.nil))
      (fun j cd _ => rfl)).imp (fun _ h => ⟨h.1, h.2.1⟩)⟩

end OpenrpcGoDocument
